import Mathlib

/-!
Verification of the anchor-propagation filter (`Lib/ufo2ft/filters/propagateAnchors.py`)
and the mark feature writer (`Lib/ufo2ft/featureWriters/markFeatureWriter.py`).

The Python sources are shallowly embedded: glyphs, fonts and the filter's
run state become explicit records, mutation becomes state passing, and the
`re`-based helpers are specialised to the default patterns the code is run
with (`markRE = "^_"`, `LIGA_NUM_RE = ".*?(\d+)$"`).  Numeric anchor
coordinates are modelled as integers (the algorithms only add, multiply and
compare them).
-/

namespace Ufo2ft

/-! ## Generic helpers: ordered association lists and a stable insertion sort.

Python dicts preserve insertion order; association lists with
replace-in-place updates model them.  Python `sorted` is stable;
`stableInsertionSort lt` inserts an element after all elements it is not
strictly below, which is the same stable order. -/

def assocFind? {α : Type} (l : List (String × α)) (k : String) : Option α :=
  (l.find? (fun p => p.1 = k)).map (fun p => p.2)

def assocSet {α : Type} : List (String × α) → String → α → List (String × α)
  | [], k, v => [(k, v)]
  | p :: ps, k, v => if p.1 = k then (k, v) :: ps else p :: assocSet ps k v

def stableInsert {α : Type} (lt : α → α → Bool) (x : α) : List α → List α
  | [] => [x]
  | y :: ys => if lt y x then y :: stableInsert lt x ys else x :: y :: ys

def stableInsertionSort {α : Type} (lt : α → α → Bool) : List α → List α
  | [] => []
  | x :: xs => stableInsert lt x (stableInsertionSort lt xs)

/-- Lexicographic strict comparison of character lists by code point,
matching Python string comparison. -/
def charsLt : List Char → List Char → Bool
  | [], [] => false
  | [], _ :: _ => true
  | _ :: _, [] => false
  | a :: as, b :: bs => if a < b then true else if b < a then false else charsLt as bs

def strLt (a b : String) : Bool := charsLt a.data b.data

/-! ## Anchor-name parsing (`markFeatureWriter.parseAnchorName`, `NamedAnchor.__init__`).

Names are processed as character lists.  `LIGA_NUM_RE = ".*?(\d+)$"`
matches exactly the names ending in a digit, and the non-greedy prefix makes
group 1 the maximal trailing digit run. -/

/-- The maximal trailing run of decimal digits of a name (group 1 of
`LIGA_NUM_RE` when the name ends in a digit, `[]` when the regex does not
match). -/
def trailingDigits (l : List Char) : List Char :=
  (l.reverse.takeWhile Char.isDigit).reverse

/-- Python `str.rstrip(chars)`: strip from the right while the last
character is one of `chars`. -/
def rstripChars (l : List Char) (chars : List Char) : List Char :=
  (l.reverse.dropWhile (fun c => chars.contains c)).reverse

def digitsToNat (l : List Char) : Nat :=
  l.foldl (fun n c => 10 * n + (c.toNat - 48)) 0

/-- The first half of `parseAnchorName`: split a name into the candidate key
and the optional ligature number.  Mirrors lines 96-110 of
`markFeatureWriter.py`: when the name ends in digits, the digits are
stripped (via `rstrip`) and the result must end in the separator `"_"`,
otherwise the name is not a valid ligature anchor name. -/
def ligaSplit (name : List Char) : List Char × Option Nat :=
  let ds := trailingDigits name
  if ds.isEmpty then (name, none)
  else
    let key := rstripChars name ds
    if key.getLast? = some '_' then (key.dropLast, some (digitsToNat ds))
    else (name, none)

/-- `parseAnchorName` with the default `markPrefix = "_"`,
`ligaSeparator = "_"`, `ligaNumRE = ".*?(\d+)$"` and no `ignoreRE`.
Returns `(isMark, key, number)` or the message of the `ValueError` raised. -/
def parseAnchorName (name : List Char) : Except String (Bool × List Char × Option Nat) :=
  let kn := ligaSplit name
  let key := kn.1
  let number := kn.2
  if name.head? = some '_' ∧ key ≠ [] then
    if number ≠ none then Except.error "mark anchor cannot be numbered"
    else
      let key := key.drop 1
      if key = [] then Except.error "mark anchor key is nil"
      else Except.ok (true, key, none)
  else Except.ok (false, key, number)

/-- `NamedAnchor.__init__`: parse the name, then reject a parsed ligature
component index below 1; when there is no number, `assert key, name`
(modelled as an error as well, though unreachable for the non-empty names
the writer feeds it). -/
def mkNamedAnchor (name : List Char) : Except String (Bool × List Char × Option Nat) :=
  match parseAnchorName name with
  | Except.error e => Except.error e
  | Except.ok (isMark, key, number) =>
    match number with
    | some n =>
        if n < 1 then Except.error "ligature component indexes must start from 1"
        else Except.ok (isMark, key, some n)
    | none =>
        if key = [] then Except.error "assertion failed: key"
        else Except.ok (isMark, key, none)

/-- A mark-prefixed name that carries a valid ligature number: the first
`ValueError` of `parseAnchorName`. -/
def markNumberedViolation (name : List Char) : Prop :=
  name.head? = some '_' ∧ (ligaSplit name).1 ≠ [] ∧ (ligaSplit name).2 ≠ none

instance (name : List Char) : Decidable (markNumberedViolation name) := by
  unfold markNumberedViolation; infer_instance

/-- A name that reduces to an empty mark key after stripping the mark
prefix: the second `ValueError` of `parseAnchorName`. -/
def nilMarkKeyViolation (name : List Char) : Prop :=
  name.head? = some '_' ∧ (ligaSplit name).1 ≠ [] ∧ (ligaSplit name).2 = none ∧
    (ligaSplit name).1.drop 1 = []

instance (name : List Char) : Decidable (nilMarkKeyViolation name) := by
  unfold nilMarkKeyViolation; infer_instance

/-! ## The attachment registry (`propagateAnchors.Attachment`,
`PropagateAnchorsFilter._collect_attachments`).

The filter is modelled with its default options: `markRE = "^_"` (so
`_mark_anchor_name` succeeds exactly on names starting with `"_"`, matching
`"_"` itself, and `name.replace(m.group(0), "", 1)` drops that leading
underscore), and no explicit `attachments` option. -/

structure Attachment where
  base : List String
  mark : List String
deriving DecidableEq, Repr

/-- `re.match("^_", name)` succeeds iff the name starts with an underscore. -/
def matchesMarkRE (name : String) : Bool := name.data.head? = some '_'

/-- Key used for a mark anchor name: the name with the matched `"_"`
removed (`anchor_name.replace(m.group(0), "", 1)` removes the first
underscore, which is the leading one). -/
def markStripKey (name : String) : String := String.mk (name.data.drop 1)

/-- `anchor_name.find("_") > 0`: the name contains `"_"` at an index
greater than zero.  Inside `_collect_attachments` this branch is only
reached when the name does not start with `"_"`, so it reduces to plain
containment. -/
def hasInnerSep (name : String) : Bool := name.data.contains '_'

/-- `anchor_name.rsplit("_", 1)[0]`: everything before the last underscore. -/
def rsplitKey (name : String) : String :=
  String.mk ((name.data.reverse.dropWhile (fun c => c ≠ '_')).drop 1).reverse

/-- The `attachments_dict` key the classification of `_collect_attachments`
assigns to an anchor name: the stripped form for a mark name, the part
before the last separator for a base name with an inner separator, the name
itself otherwise. -/
def inferredKey (n : String) : String :=
  if matchesMarkRE n then markStripKey n
  else if hasInnerSep n then rsplitKey n
  else n

/-- One step of the `_collect_attachments` loop over the font's anchor
names, updating the ordered `attachments_dict`. -/
def collectStep (d : List (String × Attachment)) (name : String) : List (String × Attachment) :=
  if matchesMarkRE name then
    let key := markStripKey name
    let a := (assocFind? d key).getD ⟨[], []⟩
    if a.mark.contains name then d
    else assocSet d key { a with mark := a.mark ++ [name] }
  else if hasInnerSep name then
    let key := rsplitKey name
    let a := (assocFind? d key).getD ⟨[], []⟩
    if a.base.contains name then d
    else assocSet d key { a with base := a.base ++ [name] }
  else
    let a := (assocFind? d name).getD ⟨[], []⟩
    if a.base.contains name then d
    else assocSet d name { a with base := a.base ++ [name] }

/-- `_collect_attachments` without the explicit-options shortcut: classify
every anchor name of the font, then keep the attachments with a non-empty
base and a non-empty mark set.  The source iterates over a Python set of
names; the model takes the names as a list (the callers pass it
deduplicated) and returns the kept attachments as a list. -/
def collectAttachments (names : List String) : List Attachment :=
  ((names.foldl collectStep []).map (fun p => p.2)).filter
    (fun a => ¬ a.base.isEmpty ∧ ¬ a.mark.isEmpty)

/-! ## The font data model used by the propagation filter.

A UFO glyph exposes a name, an ordered mutable anchor list and an ordered
component list; a component references a base glyph by name and carries a
6-value affine transform `(xx, xy, yx, yy, dx, dy)` as in
`fontTools.misc.transform.Transform`.  `glyph.unicode` is the glyph's first
code point or `None` (and code point `0` is falsy in `if glyph.unicode:`).
The font-level `lib[OPENTYPE_CATEGORIES_KEY]` mapping becomes
`categories`. -/

structure Anchor where
  name : String
  x : Int
  y : Int
deriving DecidableEq, Repr

structure Component where
  baseGlyph : String
  xx : Int
  xy : Int
  yx : Int
  yy : Int
  dx : Int
  dy : Int
deriving DecidableEq, Repr

structure Glyph where
  name : String
  anchors : List Anchor
  components : List Component
  unicode : Option Nat
deriving DecidableEq, Repr

structure Font where
  glyphs : List Glyph
  categories : List (String × String)
  markUnicodes : List Nat
deriving DecidableEq, Repr

/-- Per-run context of the filter (`set_context`): the collected
attachments plus the font-level data the category heuristic reads.
`markUnicodes` stands for `ufo2ft.util.unicodeInCategories` with the
filter's `unicodeMarkCategories` (`Mn`, `Me`).  Modelled from the spec:
`ufo2ft/util.py` is not among the sources; the spec's "Unicode
general-category heuristic for marks" is modelled as membership in a given
set of mark code points. -/
structure Ctx where
  attachments : List Attachment
  categories : List (String × String)
  markUnicodes : List Nat
deriving DecidableEq, Repr

/-- Mutable per-run state: the font's glyphs (mutated in place by
`appendAnchor`) and the processed-name memo set. -/
structure PropState where
  glyphs : List Glyph
  processed : List String
deriving DecidableEq, Repr

def findGlyph (glyphs : List Glyph) (n : String) : Option Glyph :=
  glyphs.find? (fun g => g.name = n)

def anchorsAt (st : PropState) (m : String) : List Anchor :=
  ((findGlyph st.glyphs m).map (fun g => g.anchors)).getD []

/-- `glyph.appendAnchor(...)` for each of `extra`, on the glyph named `n`. -/
def appendAnchors (st : PropState) (n : String) (extra : List Anchor) : PropState :=
  { st with glyphs := st.glyphs.map (fun g => if g.name = n then { g with anchors := g.anchors ++ extra } else g) }

/-- `get_anchor_attachment`: the attachment containing the name in either
set.  The source scans a Python set of attachments; since every name
belongs to at most one attachment, scanning a list is equivalent. -/
def getAnchorAttachment (ctx : Ctx) (name : String) : Option Attachment :=
  ctx.attachments.find? (fun a => a.base.contains name ∨ a.mark.contains name)

/-- A transient propagated anchor (`SimpleNamespace(component=...,
component_is_mark=..., anchor=..., attachment=...)`).  The source compares
`pa.component` objects by identity; two components of the same composite
are distinct objects even when equal as values, so the component is
represented by its index in the composite's component list. -/
structure PAnchor where
  componentIdx : Nat
  componentIsMark : Bool
  anchor : Anchor
  attachment : Option Attachment
deriving DecidableEq, Repr

def transformPoint (c : Component) (x y : Int) : Int × Int :=
  (c.xx * x + c.yx * y + c.dx, c.xy * x + c.yy * y + c.dy)

def isIdentityTransform (c : Component) : Bool :=
  c.xx = 1 ∧ c.xy = 0 ∧ c.yx = 0 ∧ c.yy = 1 ∧ c.dx = 0 ∧ c.dy = 0

def horizontalOpposite (n : String) : Option String :=
  if n = "bottomleft" then some "bottomright"
  else if n = "bottomright" then some "bottomleft"
  else if n = "topleft" then some "topright"
  else if n = "topright" then some "topleft"
  else none

def verticalOpposite (n : String) : Option String :=
  if n = "top" then some "bottom"
  else if n = "topleft" then some "bottomleft"
  else if n = "topright" then some "bottomright"
  else if n = "bottom" then some "top"
  else if n = "bottomleft" then some "topleft"
  else if n = "bottomright" then some "topright"
  else none

/-- Build the propagated anchor for one anchor of one component
(`_collect_components_anchors`, loop body): copy the anchor; rename it when
the transform's horizontal scale is negative and the name has a horizontal
opposite; the vertical branch (`t[3] < 0`) evaluates
`vertical_opposites[anchor.name]` and discards the result, so it has no
effect and no counterpart here; transform the point unless the transform is
the identity; finally look up the attachment of the (renamed) name. -/
def makePAnchor (ctx : Ctx) (idx : Nat) (c : Component) (isMark : Bool) (a : Anchor) : PAnchor :=
  let name1 :=
    if c.xx < 0 then
      match horizontalOpposite a.name with
      | some o => o
      | none => a.name
    else a.name
  let p := if isIdentityTransform c then (a.x, a.y) else transformPoint c a.x a.y
  { componentIdx := idx, componentIsMark := isMark,
    anchor := { name := name1, x := p.1, y := p.2 },
    attachment := getAnchorAttachment ctx name1 }

/-! ## Glyph category classification (`get_glyph_category`).

The source recurses through component base glyphs without a memo, so the
model takes a fuel bound consumed only by that recursion; the
non-recursive checks (lib category, Unicode, mark anchors) do not look at
the fuel. -/

/-- Does the glyph carry a mark anchor, i.e. an anchor that belongs to the
mark set of its attachment (lines 128-133)? -/
def hasMarkAnchor (ctx : Ctx) (g : Glyph) : Bool :=
  g.anchors.any (fun a =>
    match getAnchorAttachment ctx a.name with
    | none => false
    | some att => att.mark.contains a.name)

/-- The body of `get_glyph_category`; `rec` is the recursive call through
component base glyphs, `none` when the fuel is exhausted (the source has
no fuel: its recursion is bounded by the component nesting). -/
def getGlyphCategoryAux (ctx : Ctx) (glyphs : List Glyph)
    (rec : Option (Glyph → Option String)) (g : Glyph) : Option String :=
  match assocFind? ctx.categories g.name with
  | some c => some c
  | none =>
    if g.unicode.getD 0 ≠ 0 then
      if ctx.markUnicodes.contains (g.unicode.getD 0) then some "mark" else some "base"
    else if hasMarkAnchor ctx g then some "mark"
    else if g.components.isEmpty then none
    else
      match rec with
      | none => none
      | some r =>
        let cats := g.components.filterMap (fun c => (findGlyph glyphs c.baseGlyph).bind r)
        if cats.all (fun c => c = "mark") then some "mark" else none

def getGlyphCategory (ctx : Ctx) (glyphs : List Glyph) : Nat → Glyph → Option String
  | 0, g => getGlyphCategoryAux ctx glyphs none g
  | fuel + 1, g => getGlyphCategoryAux ctx glyphs (some (getGlyphCategory ctx glyphs fuel)) g

/-! ## Pruning (`_prune_attached_anchors`, `_prune_opposite_mark_anchors`,
`_prune_mark_anchors`, `_rename_composite_ligature_anchors`). -/

/-- Squared Euclidean distance (`_distance`). -/
def sqDist (a b : Anchor) : Int :=
  (a.x - b.x) ^ 2 + (a.y - b.y) ^ 2

def attBaseOf (pa : PAnchor) : List String := ((pa.attachment.map Attachment.base).getD [])

def attMarkOf (pa : PAnchor) : List String := ((pa.attachment.map Attachment.mark).getD [])

/-- Inner loop of `_prune_attached_anchors`: the closest base anchor of the
same attachment from a different component.  Ties keep the earlier
candidate (`distance < matched_distance` is strict). -/
def findClosestBase (pas : List PAnchor) (pa1 : PAnchor) : Option (Int × PAnchor) :=
  pas.foldl
    (fun best pa2 =>
      if pa2 = pa1 then best
      else if pa1.attachment ≠ pa2.attachment then best
      else if ¬ (attBaseOf pa1).contains pa2.anchor.name then best
      else if pa1.componentIdx = pa2.componentIdx then best
      else
        let d := sqDist pa1.anchor pa2.anchor
        match best with
        | none => some (d, pa2)
        | some bd => if d < bd.1 then some (d, pa2) else best)
    none

/-- Append an entry to a dict-of-lists entry
(`matched_anchors.setdefault(name, []).append(entry)`). -/
def matchesAppend (md : List (String × List (Int × PAnchor × PAnchor))) (k : String)
    (e : Int × PAnchor × PAnchor) : List (String × List (Int × PAnchor × PAnchor)) :=
  match assocFind? md k with
  | some l => assocSet md k (l ++ [e])
  | none => md ++ [(k, [e])]

/-- First phase of `_prune_attached_anchors`: collect, per mark-anchor
name, the matched (distance, mark anchor, closest base anchor) triples, in
iteration order. -/
def buildMatches (pas : List PAnchor) : List (String × List (Int × PAnchor × PAnchor)) :=
  pas.foldl
    (fun md pa1 =>
      if ¬ (attMarkOf pa1).contains pa1.anchor.name then md
      else if ¬ pa1.componentIsMark then md
      else
        match findClosestBase pas pa1 with
        | none => md
        | some de => matchesAppend md pa1.anchor.name (de.1, pa1, de.2))
    []

/-- Stable insertion for `sorted(matches, key=lambda t: t[0])`. -/
def distLt (a b : Int × PAnchor × PAnchor) : Bool := a.1 < b.1

/-- Removal step for one matched pair: remove the mark anchor and the
matched base anchor (Python `list.remove` removes the first occurrence; it
raises when the value is absent, a situation the proved runs never reach,
modelled as a no-op), then every base anchor of the same attachment coming
from the matched base anchor's component. -/
def removeMatched (pas : List PAnchor) (t : Int × PAnchor × PAnchor) : List PAnchor :=
  let pa1 := t.2.1
  let pa2 := t.2.2
  let pas := pas.erase pa1
  let pas := pas.erase pa2
  pas.filter (fun pa =>
    ¬ (pa.componentIdx = pa2.componentIdx ∧ (attBaseOf pa2).contains pa.anchor.name))

/-- `_prune_attached_anchors(propagated_anchors, mode)`: `modeMark` is
`mode == "mark"`; in that mode the farthest matched pair of each name is
kept (`break` at the last index of the sorted match list). -/
def pruneAttachedAnchors (modeMark : Bool) (pas : List PAnchor) : List PAnchor :=
  (buildMatches pas).foldl
    (fun pas kv =>
      let sorted := stableInsertionSort distLt kv.2
      let toProcess := if modeMark then sorted.dropLast else sorted
      toProcess.foldl removeMatched pas)
    pas

/-- `_prune_opposite_mark_anchors`: drop a propagated anchor when some base
name of its attachment has a vertical or horizontal opposite that is
already an anchor of the glyph. -/
def pruneOppositeMarkAnchors (g : Glyph) (pas : List PAnchor) : List PAnchor :=
  let names := g.anchors.map Anchor.name
  pas.filter (fun pa =>
    let opposites := (attBaseOf pa).foldl
      (fun acc n =>
        let acc := match verticalOpposite n with
          | some o => acc ++ [o]
          | none => acc
        match horizontalOpposite n with
        | some o => acc ++ [o]
        | none => acc)
      []
    ¬ opposites.any (fun o => names.contains o))

/-- `_prune_mark_anchors`: drop propagated anchors whose name is in the
mark set of their attachment. -/
def pruneMarkAnchors (pas : List PAnchor) : List PAnchor :=
  pas.filter (fun pa => ¬ (attMarkOf pa).contains pa.anchor.name)

def natAssocGet (l : List (String × Nat)) (k : String) : Nat :=
  ((l.find? (fun p => p.1 = k)).map (fun p => p.2)).getD 0

def natAssocSet : List (String × Nat) → String → Nat → List (String × Nat)
  | [], k, v => [(k, v)]
  | p :: ps, k, v => if p.1 = k then (k, v) :: ps else p :: natAssocSet ps k v

/-- `_rename_composite_ligature_anchors`: every propagated anchor's name is
in the snapshot set `anchor_names` (it is the set of exactly these names),
so each anchor is renamed to `"%s_%d" % (name, i)` with a per-name
occurrence counter. -/
def renameCompositeLigatureAnchors (pas : List PAnchor) : List PAnchor :=
  (pas.foldl
    (fun (acc : List PAnchor × List (String × Nat)) pa =>
      let i := natAssocGet acc.2 pa.anchor.name + 1
      (acc.1 ++ [{ pa with anchor := { pa.anchor with name := pa.anchor.name ++ "_" ++ toString i } }],
        natAssocSet acc.2 pa.anchor.name i))
    ([], [])).1

/-! ## The propagation engine (`_collect_components_anchors`,
`_propagate_glyph_anchors`, and the filter run).

Recursion through the component graph terminates in the source because a
glyph is added to the processed set before its components are visited; the
model instead consumes one unit of fuel per nesting level.  With fuel at
least the number of font glyphs plus one, the model performs exactly the
recursion the source performs. -/

/-- Sort key `(pa.anchor.name, pa.anchor.x, pa.anchor.y)`, strict
lexicographic comparison as used by the stable `sorted`. -/
def paLt (p q : PAnchor) : Bool :=
  strLt p.anchor.name q.anchor.name ∨
    (p.anchor.name = q.anchor.name ∧
      (p.anchor.x < q.anchor.x ∨ (p.anchor.x = q.anchor.x ∧ p.anchor.y < q.anchor.y)))

/-- `_collect_components_anchors`, parameterised by the recursive
propagation call `rec`: for each component (skipping the ones whose base
glyph is missing from the glyph set, which the source logs as a warning),
propagate the base glyph's anchors, compute `component_is_mark` from the
base glyph's (post-propagation) anchors via `markRE = "^_"`, and turn every
resulting anchor into a `PAnchor`. -/
def collectCompStep (rec : PropState → String → List Anchor × PropState) (ctx : Ctx)
    (acc : List PAnchor × PropState) (ic : Nat × Component) : List PAnchor × PropState :=
  match findGlyph acc.2.glyphs ic.2.baseGlyph with
  | none => acc
  | some _ =>
    let r := rec acc.2 ic.2.baseGlyph
    let isMark := r.1.any (fun a => matchesMarkRE a.name)
    (acc.1 ++ r.1.map (makePAnchor ctx ic.1 ic.2 isMark), r.2)

def collectComponentsAnchors (rec : PropState → String → List Anchor × PropState)
    (ctx : Ctx) (st0 : PropState) (comps : List Component) : List PAnchor × PropState :=
  comps.enum.foldl (collectCompStep rec ctx) ([], st0)

/-- The body of `_propagate_glyph_anchors` for an unprocessed composite
glyph, parameterised by the recursive propagation call `rec` and run from
the state `st1` in which the glyph has just been marked processed: collect
the component anchors, classify the glyph, filter and prune, and append
the survivors sorted by `(name, x, y)`. -/
def propagateCore (rec : PropState → String → List Anchor × PropState) (ctx : Ctx)
    (fuel : Nat) (st1 : PropState) (g : Glyph) (n : String) : List Anchor × PropState :=
  let cr := collectComponentsAnchors rec ctx st1 g.components
  let st2 := cr.2
  let gCur := (findGlyph st2.glyphs n).getD g
  let category := getGlyphCategory ctx st2.glyphs fuel gCur
  let ownNames := gCur.anchors.map Anchor.name
  let pas := cr.1.filter
    (fun pa => pa.attachment.isSome ∧ ¬ ownNames.contains pa.anchor.name)
  let pas :=
    if category = some "base" then pruneMarkAnchors (pruneAttachedAnchors false pas)
    else if category = some "mark" then
      pruneAttachedAnchors true (pruneOppositeMarkAnchors gCur pas)
    else if category = some "ligature" then
      renameCompositeLigatureAnchors (pruneMarkAnchors (pruneAttachedAnchors false pas))
    else pruneAttachedAnchors false pas
  let extra := (stableInsertionSort paLt pas).map PAnchor.anchor
  (gCur.anchors ++ extra, appendAnchors st2 n extra)

/-- `_propagate_glyph_anchors(glyph)`, with the glyph given by name.
Returns the glyph's (possibly extended) anchor list together with the
updated run state. -/
def propagateGlyphAnchors (ctx : Ctx) : Nat → PropState → String → List Anchor × PropState
  | 0, st, n => (anchorsAt st n, st)
  | fuel + 1, st, n =>
    match findGlyph st.glyphs n with
    | none => ([], st)
    | some g =>
      if st.processed.contains n then (g.anchors, st)
      else
        let st1 : PropState := { st with processed := st.processed ++ [n] }
        if g.components.isEmpty then (g.anchors, st1)
        else propagateCore (propagateGlyphAnchors ctx fuel) ctx fuel st1 g n

/-- One pass of the filter over a list of glyph names with a fixed context
and a shared run state (`BaseFilter.__call__` calls `filter` for each glyph
of the glyph set; `filter` propagates the glyph's anchors). -/
def runPass (ctx : Ctx) (fuel : Nat) (st : PropState) (names : List String) : PropState :=
  names.foldl (fun st n => (propagateGlyphAnchors ctx fuel st n).2) st

/-- All anchor names of the font, deduplicated in first-occurrence order
(the source accumulates them into a Python set). -/
def allAnchorNames (font : Font) : List String :=
  font.glyphs.foldl
    (fun acc g => g.anchors.foldl
      (fun acc a => if acc.contains a.name then acc else acc ++ [a.name]) acc)
    []

/-- One invocation of the filter on a whole font: `set_context` collects
the attachments from the font's current anchors and resets the processed
set, then every glyph of the font is propagated. -/
def runFilterOnce (fuel : Nat) (font : Font) : Font :=
  let ctx : Ctx := { attachments := collectAttachments (allAnchorNames font),
                     categories := font.categories, markUnicodes := font.markUnicodes }
  let st : PropState := { glyphs := font.glyphs, processed := [] }
  { font with glyphs := (runPass ctx fuel st (font.glyphs.map Glyph.name)).glyphs }

/-- Anchors of a named glyph of a font. -/
def fontAnchors (font : Font) (n : String) : List Anchor :=
  ((findGlyph font.glyphs n).map (fun g => g.anchors)).getD []

/-! ## The mark feature writer (`markFeatureWriter.py`).

`NamedAnchor` objects carry the anchor coordinates together with the
parsed `isMark`, `key` and `number` attributes (section above).  The
writer walks `anchorLists`, an ordered mapping from glyph name to the
glyph's named anchors.  Modelled from the spec: the order of
`anchorLists` comes from `BaseFeatureWriter.getOrderedGlyphSet`, which is
not among the sources; per the spec's input-font contract the font
supplies its glyphs in a well-defined order, which the model takes as the
order of the input list. -/

structure NAnchor where
  name : String
  key : String
  number : Option Nat
  isMark : Bool
  x : Int
  y : Int
deriving DecidableEq, Repr

/-- `ast.Anchor(x=round(x), y=round(y))` with the only fields the writer
sets; `contourpoint`, `xDeviceTable` and `yDeviceTable` are always `None`,
and with integer coordinates `round` is the identity. -/
structure FeaAnchor where
  x : Int
  y : Int
deriving DecidableEq, Repr

/-- `MarkFeatureWriter._anchorsAreEqual`, on the fields that can differ. -/
def anchorsAreEqual (a b : FeaAnchor) : Bool := a.x = b.x ∧ a.y = b.y

/-! ### Mark-to-ligature attachments (`_makeMarkToLigaAttachments`). -/

def compGet? (d : List (Nat × List NAnchor)) (k : Nat) : Option (List NAnchor) :=
  (d.find? (fun p => p.1 = k)).map (fun p => p.2)

/-- `componentAnchors[number] = []` (plain dict assignment). -/
def compSet : List (Nat × List NAnchor) → Nat → List NAnchor → List (Nat × List NAnchor)
  | [], k, v => [(k, v)]
  | p :: ps, k, v => if p.1 = k then (k, v) :: ps else p :: compSet ps k v

/-- `componentAnchors.setdefault(number, []).append(anchor)`. -/
def compAppend (d : List (Nat × List NAnchor)) (k : Nat) (a : NAnchor) : List (Nat × List NAnchor) :=
  match compGet? d k with
  | some l => compSet d k (l ++ [a])
  | none => d ++ [(k, [a])]

/-- The `componentAnchors` dict built for one glyph: numbered anchors are
grouped by number; an anchor with a number but an empty key (`"_1"`,
`"_2"`, ...) overwrites the slot with the empty list (`<anchor NULL>`). -/
def componentAnchorsOf (anchors : List NAnchor) : List (Nat × List NAnchor) :=
  anchors.foldl
    (fun d a =>
      match a.number with
      | none => d
      | some k => if a.key = "" then compSet d k [] else compAppend d k a)
    []

def keyMax (d : List (Nat × List NAnchor)) : Nat :=
  d.foldl (fun m p => max m p.1) 0

/-- The per-glyph body of `_makeMarkToLigaAttachments`: `none` when the
glyph has no numbered anchors, otherwise one slot per component index from
1 to `max(componentAnchors.keys())`, a missing index yielding the empty
(null-anchor) slot. -/
def ligaSlots (anchors : List NAnchor) : Option (List (List NAnchor)) :=
  let d := componentAnchorsOf anchors
  if d.isEmpty then none
  else some ((List.range' 1 (keyMax d)).map (fun k => (compGet? d k).getD []))

/-- `max(componentAnchors.keys())` expressed over the glyph's anchors: the
largest ligature component index carried by any anchor. -/
def maxNum (anchors : List NAnchor) : Nat :=
  anchors.foldl
    (fun m a =>
      match a.number with
      | some k => max m k
      | none => m)
    0

/-- `_makeMarkToLigaAttachments`: one `MarkToLigaPos` per glyph of the
anchor lists that is not a mark glyph and has numbered anchors. -/
def makeMarkToLigaAttachments (anchorLists : List (String × List NAnchor))
    (markGlyphNames : List String) : List (String × List (List NAnchor)) :=
  anchorLists.foldl
    (fun res p =>
      if markGlyphNames.contains p.1 then res
      else
        match ligaSlots p.2 with
        | none => res
        | some slots => res ++ [(p.1, slots)])
    []

/-! ### Mark classes (`_groupMarkGlyphsByAnchor`, `_defineMarkClass`,
`_makeMarkClassDefinitions`) and emission order (`_write`,
`_makeMkmkFeature`, `_makeFeatures`). -/

def assocAppendList {α : Type} (l : List (String × List α)) (k : String) (v : α) :
    List (String × List α) :=
  match assocFind? l k with
  | some xs => assocSet l k (xs ++ [v])
  | none => l ++ [(k, [v])]

/-- `_groupMarkGlyphsByAnchor`: group the (glyph name, anchor) pairs whose
anchor name is one of the mark anchor names, keyed by anchor name, in
glyph-set iteration order. -/
def groupMarkGlyphsByAnchor (anchorLists : List (String × List NAnchor))
    (markAnchorNames : List String) : List (String × List (String × NAnchor)) :=
  anchorLists.foldl
    (fun groups p =>
      p.2.foldl
        (fun groups a =>
          if markAnchorNames.contains a.name then assocAppendList groups a.name (p.1, a)
          else groups)
        groups)
    []

def maxStrLen (l : List String) : Nat :=
  l.foldl (fun m s => max m s.data.length) 0

/-- Modelled from the spec: `ast.makeFeaClassName(name, existing)` (the
`ast` helper module is not among the sources) returns a class name not yet
in `existing` — the spec's "fork a new uniquely-named class".  The model
guarantees freshness by exceeding every existing name's length. -/
def makeFeaClassName (base : String) (existing : List String) : String :=
  String.mk (base.data ++ List.replicate (maxStrLen existing + 1) 'X')

/-- `_defineMarkClass(glyphName, x, y, className, markClasses)`.  The state
maps class names to their ordered glyph definitions; the second result is
the new `MarkClassDefinition` (class name, glyph name, anchor) or `none`
when the glyph was already defined with identical geometry; the third
result records whether the debug message "Glyph ... already defined" was
logged. -/
def defineMarkClass (glyphName : String) (x y : Int) (className : String)
    (mcs : List (String × List (String × FeaAnchor))) :
    List (String × List (String × FeaAnchor)) × Option (String × String × FeaAnchor) × Bool :=
  let anchor : FeaAnchor := ⟨x, y⟩
  match assocFind? mcs className with
  | none =>
    (mcs ++ [(className, [(glyphName, anchor)])], some (className, glyphName, anchor), false)
  | some glyphs =>
    match assocFind? glyphs glyphName with
    | some a0 =>
      if anchorsAreEqual anchor a0 then (mcs, none, true)
      else
        let newName := makeFeaClassName className (mcs.map (fun p => p.1))
        (mcs ++ [(newName, [(glyphName, anchor)])], some (newName, glyphName, anchor), false)
    | none =>
      (assocSet mcs className (glyphs ++ [(glyphName, anchor)]),
        some (className, glyphName, anchor), false)

def strKeyLt {α : Type} (a b : String × α) : Bool := strLt a.1 b.1

/-- One `_defineMarkClass` call inside the `_makeMarkClassDefinitions`
loop: the running state is (emitted definitions, mark classes, working
class name); a produced definition is appended and the working class name
becomes the class it landed in. -/
def defineStep
    (a2 : List (String × String × FeaAnchor) × List (String × List (String × FeaAnchor)) × String)
    (p : String × NAnchor) :
    List (String × String × FeaAnchor) × List (String × List (String × FeaAnchor)) × String :=
  let res := defineMarkClass p.1 p.2.x p.2.y a2.2.2 a2.2.1
  match res.2.1 with
  | some d => (a2.1 ++ [d], res.1, d.1)
  | none => (a2.1, res.1, a2.2.2)

/-- `_makeMarkClassDefinitions`: iterate the mark glyph groups sorted by
mark anchor name; inside a group, iterate the glyph/anchor pairs in
glyph-set order, calling `_defineMarkClass` with the class name
`"MC" + markAnchorName` (the `ast.makeFeaClassName` sanitizer is the
identity on well-formed names) and updating the working class name when a
definition lands in a forked class.  Returns the emitted
`MarkClassDefinition`s in order.  The `allMarkClasses[anchor.key]`
bookkeeping mapping does not influence the emitted definitions and is not
modelled. -/
def makeMarkClassDefinitions (anchorLists : List (String × List NAnchor))
    (markAnchorNames : List String) : List (String × String × FeaAnchor) :=
  let groups := groupMarkGlyphsByAnchor anchorLists markAnchorNames
  ((stableInsertionSort strKeyLt groups).foldl
    (fun (acc : List (String × String × FeaAnchor) × List (String × List (String × FeaAnchor))) grp =>
      let r := grp.2.foldl defineStep (acc.1, acc.2, "MC" ++ grp.1)
      (r.1, r.2.1))
    ([], [])).1

/-- `_makeMarkToMarkAttachments`: for mark glyphs, group the glyph names of
the `MarkToMarkPos` rules by anchor key; non-mark anchors only, numbered
anchors are warned about and skipped. -/
def makeMarkToMarkAttachments (anchorLists : List (String × List NAnchor))
    (markGlyphNames : List String) : List (String × List String) :=
  anchorLists.foldl
    (fun res p =>
      if ¬ markGlyphNames.contains p.1 then res
      else
        p.2.foldl
          (fun res a =>
            if a.isMark then res
            else if a.number ≠ none then res
            else assocAppendList res a.key p.1)
          res)
    []

/-- `_makeMkmkFeature`: one mark-to-mark lookup per anchor key, iterated in
sorted anchor-key order; `_makeMarkToMarkLookup` contributes nothing when
the `include` filter leaves no attachments.  Returns the anchor keys of the
emitted lookups, in emission order. -/
def mkmkLookupKeys (m2m : List (String × List String)) (includeGlyph : String → Bool) : List String :=
  (stableInsertionSort strKeyLt m2m).foldl
    (fun acc p => if (p.2.filter includeGlyph).isEmpty then acc else acc ++ [p.1]) []

/-- The insertion order of the `features` dict in `_makeFeatures`: `mark`,
`mkmk`, `abvm`, `blwm`, each present only when produced. -/
def makeFeaturesTags (hasMark hasMkmk hasAbvm hasBlwm : Bool) : List String :=
  (if hasMark then ["mark"] else []) ++ (if hasMkmk then ["mkmk"] else []) ++
    (if hasAbvm then ["abvm"] else []) ++ (if hasBlwm then ["blwm"] else [])

/-- `_write`: `for _, feature in sorted(features.items())` — the feature
blocks are appended in sorted feature-tag order (the tags are distinct dict
keys, so the sort compares only tags). -/
def writeFeatureOrder (tags : List String) : List String :=
  stableInsertionSort strLt tags

/-- One filter-run state extends another: glyph names are unchanged, the
processed set only grows, and every glyph's anchor list is only appended
to. -/
def Extends (st st2 : PropState) : Prop :=
  st2.glyphs.map Glyph.name = st.glyphs.map Glyph.name ∧
  (∀ x, st.processed.contains x = true → st2.processed.contains x = true) ∧
  (∀ m, ∃ extra, anchorsAt st2 m = anchorsAt st m ++ extra)

/-- C1 counterexample font: a ligature of two `a2` components plus a mark
glyph that keeps the `top` attachment alive, and a `base` composite `X`
over the ligature. -/
def ligaFontA : Font :=
  { glyphs :=
      [ ⟨"a2", [⟨"top", 100, 200⟩], [], none⟩,
        ⟨"m2", [⟨"_top", 0, 0⟩], [], none⟩,
        ⟨"liga", [], [⟨"a2", 1, 0, 0, 1, 0, 0⟩, ⟨"a2", 1, 0, 0, 1, 350, 0⟩], none⟩,
        ⟨"X", [], [⟨"liga", 1, 0, 0, 1, 0, 0⟩], none⟩ ],
    categories := [("liga", "ligature"), ("X", "base")],
    markUnicodes := [] }

/-- C2 counterexample font: a `base` composite of a base component with
`top` and a mark component with `_top`, where the composite itself already
carries a local `_top` anchor. -/
def baseOwnMarkFont : Font :=
  { glyphs :=
      [ ⟨"b1", [⟨"top", 0, 0⟩], [], none⟩,
        ⟨"b2", [⟨"_top", 0, 0⟩], [], none⟩,
        ⟨"G", [⟨"_top", 5, 5⟩], [⟨"b1", 1, 0, 0, 1, 0, 0⟩, ⟨"b2", 1, 0, 0, 1, 0, 0⟩], none⟩ ],
    categories := [("G", "base")],
    markUnicodes := [] }

/-! ## Theorems -/

/-- C6: anchor-name parsing raises exactly on the structural violations:
`parseAnchorName` fails precisely on names that are mark-prefixed with a
valid ligature number (such as `_top_1`) or that reduce to an empty mark
key after stripping the prefix (such as `_`); and `NamedAnchor` raises on
a parsed ligature component index below 1 (such as `top_0`, which
`parseAnchorName` itself accepts). -/
theorem parse_anchor_name_errors :
    (∀ name : List Char,
      (parseAnchorName name).isOk = false ↔
        (markNumberedViolation name ∨ nilMarkKeyViolation name)) ∧
    (parseAnchorName "_top_1".data).isOk = false ∧
    (parseAnchorName "_".data).isOk = false ∧
    (parseAnchorName "top_0".data).isOk = true ∧
    (mkNamedAnchor "top_0".data).isOk = false := by
  refine ⟨?_, by decide, by decide, by decide, by decide⟩
  intro name
  by_cases h1 : name.head? = some '_' ∧ (ligaSplit name).1 ≠ []
  · by_cases h2 : (ligaSplit name).2 = none
    · by_cases h3 : ((ligaSplit name).1.drop 1) = []
      · simp [parseAnchorName, markNumberedViolation, nilMarkKeyViolation, h1, h2, h3,
          Except.isOk, Except.toBool, List.drop_one]
      · simp [parseAnchorName, markNumberedViolation, nilMarkKeyViolation, h1, h2,
          List.drop_one] at h3 ⊢
        simp [h3, Except.isOk, Except.toBool]
    · simp [parseAnchorName, markNumberedViolation, nilMarkKeyViolation, h1, h2, Except.isOk, Except.toBool]
  · simp [parseAnchorName, markNumberedViolation, nilMarkKeyViolation, h1, Except.isOk, Except.toBool]
    constructor
    · intro hh hk
      exact absurd ⟨hh, hk⟩ h1
    · intro hh hk _
      exact absurd ⟨hh, hk⟩ h1

lemma assocFind?_assocSet {α : Type} (d : List (String × α)) (k k2 : String) (v : α) :
    assocFind? (assocSet d k v) k2 = if k2 = k then some v else assocFind? d k2 := by
  induction d with
  | nil =>
    by_cases h : k = k2
    · subst h
      simp [assocSet, assocFind?, List.find?]
    · have h2 : ¬ k2 = k := fun he => h he.symm
      simp [assocSet, assocFind?, List.find?, h, h2]
  | cons p ps ih =>
    by_cases hp : p.1 = k
    · simp only [assocSet, if_pos hp]
      by_cases h : k2 = k
      · subst h
        simp [assocFind?, List.find?]
      · have hks : ¬ (k = k2) := fun he => h he.symm
        have hpk2 : ¬ (p.1 = k2) := by rw [hp]; exact hks
        simp [assocFind?, List.find?, hks, hpk2, h]
    · simp only [assocSet, if_neg hp]
      by_cases hpk2 : p.1 = k2
      · have h : ¬ k2 = k := fun he => hp (by rw [hpk2, he])
        simp [assocFind?, List.find?, hpk2, h]
      · simp only [assocFind?, List.find?] at ih ⊢
        simp [hpk2, ih]

/-- The body of the invariant of `collect_fold_spec`: the dict entry at
each key holds exactly the base- and mark-classified names seen so far. -/
lemma collect_fold_spec (rest : List String) :
    ∀ (seen : List String) (d : List (String × Attachment)),
      (∀ k, (assocFind? d k).getD ⟨[], []⟩ =
          ⟨seen.filter (fun n => ¬ matchesMarkRE n ∧ inferredKey n = k),
            seen.filter (fun n => matchesMarkRE n ∧ inferredKey n = k)⟩) →
      (∀ n, n ∈ rest → n ∉ seen) → rest.Nodup →
      ∀ k, (assocFind? (rest.foldl collectStep d) k).getD ⟨[], []⟩ =
          ⟨(seen ++ rest).filter (fun n => ¬ matchesMarkRE n ∧ inferredKey n = k),
            (seen ++ rest).filter (fun n => matchesMarkRE n ∧ inferredKey n = k)⟩ := by
  induction rest with
  | nil => intro seen d hinv _ _ k; simpa using hinv k
  | cons n rest ih =>
    intro seen d hinv hfresh hnd k
    have hfresh0 : n ∉ seen := hfresh n (List.mem_cons_self n rest)
    have hinv2 : ∀ k, (assocFind? (collectStep d n) k).getD ⟨[], []⟩ =
        ⟨(seen ++ [n]).filter (fun m => ¬ matchesMarkRE m ∧ inferredKey m = k),
          (seen ++ [n]).filter (fun m => matchesMarkRE m ∧ inferredKey m = k)⟩ := by
      intro k
      by_cases hm : matchesMarkRE n
      · have hkey : inferredKey n = markStripKey n := by simp [inferredKey, hm]
        have hguard : n ∉ ((assocFind? d (markStripKey n)).getD ⟨[], []⟩).mark := by
          rw [hinv (markStripKey n)]
          intro hmem
          exact hfresh0 (List.mem_filter.mp hmem).1
        have hstep : collectStep d n = assocSet d (markStripKey n)
            { (assocFind? d (markStripKey n)).getD ⟨[], []⟩ with
              mark := ((assocFind? d (markStripKey n)).getD ⟨[], []⟩).mark ++ [n] } := by
          simp [collectStep, if_pos hm, hguard]
        rw [hstep, assocFind?_assocSet]
        by_cases hk : k = markStripKey n
        · subst hk
          rw [if_pos rfl, Option.getD_some, hinv (markStripKey n)]
          simp [List.filter_append, hm, hkey]
        · rw [if_neg hk, hinv k]
          have hne : ¬ markStripKey n = k := fun he => hk he.symm
          simp [List.filter_append, hm, hkey, hne]
      · have hkey : inferredKey n = (if hasInnerSep n then rsplitKey n else n) := by
          simp [inferredKey, hm]
        set key := if hasInnerSep n then rsplitKey n else n with hkeydef
        have hguard : n ∉ ((assocFind? d key).getD ⟨[], []⟩).base := by
          rw [hinv key]
          intro hmem
          exact hfresh0 (List.mem_filter.mp hmem).1
        have hstep : collectStep d n = assocSet d key
            { (assocFind? d key).getD ⟨[], []⟩ with
              base := ((assocFind? d key).getD ⟨[], []⟩).base ++ [n] } := by
          by_cases hs : hasInnerSep n
          · simp only [hkeydef, if_pos hs] at hguard ⊢
            simp [collectStep, if_neg hm, if_pos hs, hguard]
          · simp only [hkeydef, if_neg hs] at hguard ⊢
            simp [collectStep, if_neg hm, if_neg hs, hguard]
        rw [hstep, assocFind?_assocSet]
        by_cases hk : k = key
        · subst hk
          rw [if_pos rfl, Option.getD_some, hinv key]
          simp [List.filter_append, hm, hkey]
        · rw [if_neg hk, hinv k]
          have hne : ¬ key = k := fun he => hk he.symm
          simp [List.filter_append, hm, hkey, hne]
    have hfresh2 : ∀ m, m ∈ rest → m ∉ seen ++ [n] := by
      intro m hmr
      rw [List.mem_append, List.mem_singleton]
      rintro (hs | he)
      · exact hfresh m (List.mem_cons_of_mem n hmr) hs
      · exact (List.nodup_cons.mp hnd).1 (he ▸ hmr)
    have := ih (seen ++ [n]) (collectStep d n) hinv2 hfresh2 (List.nodup_cons.mp hnd).2 k
    simpa [List.append_assoc] using this

/-- C5: with no explicit attachment configuration, `_collect_attachments`
classifies every anchor name — a mark-regex match joins the mark set under
the stripped key, a name with an inner separator joins the base set under
the part before the last separator, any other name is both key and sole
base member — and attachments with an empty base or mark set are
discarded; in particular the anchor names
`{top, top_1, top_2, top_viet, _top, bottom, _bottom}` yield exactly the
two attachments `{base {top, top_1, top_2, top_viet}, mark {_top}}` and
`{base {bottom}, mark {_bottom}}` (and a font with no `_top` anywhere
discards the `top` attachment). -/
theorem collect_attachments_classification :
    (∀ (names : List String), names.Nodup → ∀ k,
      (assocFind? (names.foldl collectStep []) k).getD ⟨[], []⟩ =
        ⟨names.filter (fun n => ¬ matchesMarkRE n ∧ inferredKey n = k),
          names.filter (fun n => matchesMarkRE n ∧ inferredKey n = k)⟩) ∧
    collectAttachments ["top", "top_1", "top_2", "top_viet", "_top", "bottom", "_bottom"] =
      [⟨["top", "top_1", "top_2", "top_viet"], ["_top"]⟩, ⟨["bottom"], ["_bottom"]⟩] ∧
    collectAttachments ["top", "bottom", "_bottom"] = [⟨["bottom"], ["_bottom"]⟩] := by
  refine ⟨?_, by decide, by decide⟩
  intro names hnd k
  have h0 : ∀ k2, (assocFind? ([] : List (String × Attachment)) k2).getD ⟨[], []⟩ =
      ⟨([] : List String).filter (fun n => ¬ matchesMarkRE n ∧ inferredKey n = k2),
        ([] : List String).filter (fun n => matchesMarkRE n ∧ inferredKey n = k2)⟩ := by
    intro k2
    simp [assocFind?]
  have := collect_fold_spec names [] [] h0 (by intro n _ h; exact absurd h (List.not_mem_nil n)) hnd k
  simpa using this

/-- Witness for the universally quantified part of
`collect_attachments_classification`. -/
theorem collect_attachments_classification_witness :
    (["top", "_top"] : List String).Nodup ∧
      (assocFind? ((["top", "_top"] : List String).foldl collectStep []) "top").getD ⟨[], []⟩ =
        ⟨["top"], ["_top"]⟩ := by
  constructor
  · decide
  · rw [collect_attachments_classification.1 ["top", "_top"] (by decide) "top"]
    decide

lemma propagate_noComponents (ctx : Ctx) (fuel : Nat) (st : PropState) (n : String) (g : Glyph)
    (hf : findGlyph st.glyphs n = some g) (hc : g.components = []) :
    ∃ pr, propagateGlyphAnchors ctx fuel st n = (g.anchors, ⟨st.glyphs, pr⟩) := by
  cases fuel with
  | zero =>
    refine ⟨st.processed, ?_⟩
    simp [propagateGlyphAnchors, anchorsAt, hf]
  | succ fuel =>
    by_cases hp : st.processed.contains n = true
    · refine ⟨st.processed, ?_⟩
      simp only [propagateGlyphAnchors, hf, hp, if_true]
    · refine ⟨st.processed ++ [n], ?_⟩
      simp only [propagateGlyphAnchors, hf, if_neg hp, hc, List.isEmpty_nil, if_true]

lemma collect_simple (ctx : Ctx) (fuel : Nat) (gl : List Glyph) :
    ∀ (comps : List (Nat × Component)) (pas : List PAnchor) (pr : List String),
      (∀ ic, ic ∈ comps → ∀ bg, findGlyph gl ic.2.baseGlyph = some bg → bg.components = []) →
      ∃ pr2, comps.foldl (collectCompStep (propagateGlyphAnchors ctx fuel) ctx) (pas, ⟨gl, pr⟩) =
        (pas ++ comps.foldr (fun ic acc =>
            (match findGlyph gl ic.2.baseGlyph with
              | none => []
              | some bg => bg.anchors.map
                  (makePAnchor ctx ic.1 ic.2 (bg.anchors.any (fun a => matchesMarkRE a.name)))) ++ acc)
          [], ⟨gl, pr2⟩) := by
  intro comps
  induction comps with
  | nil => intro pas pr _; exact ⟨pr, by simp⟩
  | cons ic comps ih =>
    intro pas pr hsimple
    cases hfb : findGlyph gl ic.2.baseGlyph with
    | none =>
      have hstep : collectCompStep (propagateGlyphAnchors ctx fuel) ctx (pas, ⟨gl, pr⟩) ic = (pas, ⟨gl, pr⟩) := by
        simp [collectCompStep, hfb]
      obtain ⟨pr2, h2⟩ := ih pas pr (fun ic2 hm => hsimple ic2 (List.mem_cons_of_mem ic hm))
      refine ⟨pr2, ?_⟩
      simp only [List.foldl_cons, hstep, h2, List.foldr_cons, hfb]
      simp
    | some bg =>
      have hbc : bg.components = [] := hsimple ic (List.mem_cons_self ic comps) bg hfb
      obtain ⟨pr1, h1⟩ := propagate_noComponents ctx fuel ⟨gl, pr⟩ ic.2.baseGlyph bg hfb hbc
      have hstep : collectCompStep (propagateGlyphAnchors ctx fuel) ctx (pas, ⟨gl, pr⟩) ic =
          (pas ++ bg.anchors.map
            (makePAnchor ctx ic.1 ic.2 (bg.anchors.any (fun a => matchesMarkRE a.name))), ⟨gl, pr1⟩) := by
        simp [collectCompStep, hfb, h1]
      obtain ⟨pr2, h2⟩ := ih
        (pas ++ bg.anchors.map (makePAnchor ctx ic.1 ic.2 (bg.anchors.any (fun a => matchesMarkRE a.name))))
        pr1 (fun ic2 hm => hsimple ic2 (List.mem_cons_of_mem ic hm))
      refine ⟨pr2, ?_⟩
      simp only [List.foldl_cons, hstep, h2, hfb, List.foldr_cons]
      simp [List.append_assoc]

/-- C3: for every component of a composite glyph (with the components'
base glyphs simple), each propagated anchor `(x, y)` of the component's
base glyph is collected at the image of `(x, y)` under the component's
affine transform, with the name flipped by the horizontal-opposites table
when the horizontal scale is negative; in particular a transform
`(1, 0, 0, 1, dx, dy)` yields `(x + dx, y + dy)` with the name unchanged,
and a negative horizontal scale renames `topleft` to `topright` and vice
versa, and likewise `bottomleft`/`bottomright`. -/
theorem component_transform_correct :
    (∀ (ctx : Ctx) (fuel : Nat) (st : PropState) (comps : List Component),
      (∀ c, c ∈ comps → ∀ bg, findGlyph st.glyphs c.baseGlyph = some bg → bg.components = []) →
      (collectComponentsAnchors (propagateGlyphAnchors ctx fuel) ctx st comps).1 =
        comps.enum.foldr (fun ic acc =>
          (match findGlyph st.glyphs ic.2.baseGlyph with
            | none => []
            | some bg => bg.anchors.map
                (makePAnchor ctx ic.1 ic.2 (bg.anchors.any (fun a => matchesMarkRE a.name)))) ++ acc)
          []) ∧
    (∀ (ctx : Ctx) (idx : Nat) (c : Component) (m : Bool) (a : Anchor),
      (makePAnchor ctx idx c m a).anchor.x = c.xx * a.x + c.yx * a.y + c.dx ∧
      (makePAnchor ctx idx c m a).anchor.y = c.xy * a.x + c.yy * a.y + c.dy ∧
      (makePAnchor ctx idx c m a).anchor.name =
        (if c.xx < 0 then (horizontalOpposite a.name).getD a.name else a.name)) ∧
    (∀ (ctx : Ctx) (idx : Nat) (b : String) (dx dy : Int) (m : Bool) (a : Anchor),
      (makePAnchor ctx idx ⟨b, 1, 0, 0, 1, dx, dy⟩ m a).anchor =
        ⟨a.name, a.x + dx, a.y + dy⟩) ∧
    (∀ (ctx : Ctx) (idx : Nat) (c : Component) (m : Bool) (x y : Int), c.xx < 0 →
      ((makePAnchor ctx idx c m ⟨"topleft", x, y⟩).anchor.name = "topright" ∧
        (makePAnchor ctx idx c m ⟨"topright", x, y⟩).anchor.name = "topleft" ∧
        (makePAnchor ctx idx c m ⟨"bottomleft", x, y⟩).anchor.name = "bottomright" ∧
        (makePAnchor ctx idx c m ⟨"bottomright", x, y⟩).anchor.name = "bottomleft")) := by
  refine ⟨?_, ?_, ?_, ?_⟩
  · intro ctx fuel st comps hsimple
    have hsimple2 : ∀ ic, ic ∈ comps.enum → ∀ bg,
        findGlyph st.glyphs ic.2.baseGlyph = some bg → bg.components = [] := by
      intro ic hm bg hfb
      exact hsimple ic.2 (List.snd_mem_of_mem_enum hm) bg hfb
    obtain ⟨pr2, h⟩ := collect_simple ctx fuel st.glyphs comps.enum [] st.processed hsimple2
    unfold collectComponentsAnchors
    rw [show (⟨st.glyphs, st.processed⟩ : PropState) = st from rfl] at h
    rw [h]
    simp
  · intro ctx idx c m a
    by_cases hid : isIdentityTransform c
    · have hxx : c.xx = 1 ∧ c.xy = 0 ∧ c.yx = 0 ∧ c.yy = 1 ∧ c.dx = 0 ∧ c.dy = 0 := by
        simpa [isIdentityTransform] using hid
      obtain ⟨h1, h2, h3, h4, h5, h6⟩ := hxx
      refine ⟨?_, ?_, ?_⟩
      · simp [makePAnchor, hid, h1, h3, h5]
      · simp [makePAnchor, hid, h2, h4, h6]
      · have hneg : ¬ c.xx < 0 := by rw [h1]; norm_num
        simp [makePAnchor, hneg]
    · refine ⟨?_, ?_, ?_⟩
      · simp [makePAnchor, hid, transformPoint]
      · simp [makePAnchor, hid, transformPoint]
      · by_cases hneg : c.xx < 0
        · simp only [makePAnchor, hid, if_false, if_pos hneg]
          cases horizontalOpposite a.name <;> simp
        · simp [makePAnchor, hid, hneg]
  · intro ctx idx b dx dy m a
    by_cases hz : dx = 0 ∧ dy = 0
    · obtain ⟨h1, h2⟩ := hz
      subst h1; subst h2
      simp [makePAnchor, isIdentityTransform]
    · have hid : isIdentityTransform ⟨b, 1, 0, 0, 1, dx, dy⟩ = false := by
        simp [isIdentityTransform]
        omega
      simp [makePAnchor, hid, transformPoint]
  · intro ctx idx c m x y hneg
    refine ⟨?_, ?_, ?_, ?_⟩ <;> simp [makePAnchor, horizontalOpposite, hneg]

/-- Witness for `component_transform_correct`: a single translated
component of a simple base glyph, and a horizontally flipped `topleft`. -/
theorem component_transform_correct_witness :
    (collectComponentsAnchors (propagateGlyphAnchors (⟨[], [], []⟩ : Ctx) 3) ⟨[], [], []⟩
        ⟨[⟨"b1", [⟨"top", 1, 2⟩], [], none⟩], []⟩ [⟨"b1", 1, 0, 0, 1, 10, 20⟩]).1 =
      [⟨0, false, ⟨"top", 11, 22⟩, none⟩] ∧
    (makePAnchor ⟨[], [], []⟩ 0 ⟨"b1", -1, 0, 0, 1, 0, 0⟩ false ⟨"topleft", 7, 8⟩).anchor.name =
      "topright" := by
  constructor
  · rw [component_transform_correct.1 ⟨[], [], []⟩ 3 ⟨[⟨"b1", [⟨"top", 1, 2⟩], [], none⟩], []⟩
      [⟨"b1", 1, 0, 0, 1, 10, 20⟩] ?_]
    · decide
    · intro c hc bg hfb
      rw [List.mem_singleton] at hc
      subst hc
      have h0 : findGlyph [(⟨"b1", [⟨"top", 1, 2⟩], [], none⟩ : Glyph)] "b1" =
          some ⟨"b1", [⟨"top", 1, 2⟩], [], none⟩ := rfl
      rw [h0] at hfb
      cases hfb
      rfl
  · exact (component_transform_correct.2.2.2 ⟨[], [], []⟩ 0 ⟨"b1", -1, 0, 0, 1, 0, 0⟩
      false 7 8 (by decide)).1

/-- C4 counterexample: a 180-degree rotation has a negative vertical scale,
yet the anchor `topleft` is renamed (by the horizontal-flip branch), so
"propagation does not rename any anchor" fails as stated for components
with negative vertical scale. -/
theorem vertical_flip_rename_counterexample :
    ((⟨"b", -1, 0, 0, -1, 0, 0⟩ : Component).yy < 0) ∧
      ¬ ((makePAnchor ⟨[], [], []⟩ 0 ⟨"b", -1, 0, 0, -1, 0, 0⟩ false
          ⟨"topleft", 3, 4⟩).anchor.name = "topleft") := by
  decide

/-- C4 (amended): the vertical-flip branch of `_collect_components_anchors`
is a no-op — for a component with negative vertical scale the anchor keeps
its original name (even a name with a vertical opposite, such as `top`),
unless the separate horizontal-flip branch applies because the horizontal
scale is also negative and the name has a horizontal opposite. -/
theorem vertical_flip_branch_noop (ctx : Ctx) (idx : Nat) (c : Component) (m : Bool) (a : Anchor)
    (hv : c.yy < 0) (hguard : ¬ (c.xx < 0 ∧ (horizontalOpposite a.name).isSome)) :
    (makePAnchor ctx idx c m a).anchor.name = a.name := by
  by_cases hneg : c.xx < 0
  · have hop : horizontalOpposite a.name = none := by
      cases hh : horizontalOpposite a.name with
      | none => rfl
      | some o => exact absurd ⟨hneg, by simp [hh]⟩ hguard
    simp [makePAnchor, hneg, hop]
  · simp [makePAnchor, hneg]

/-- Witness for `vertical_flip_branch_noop`: a vertically flipped
component and the vertically-opposable anchor name `top`. -/
theorem vertical_flip_branch_noop_witness :
    ((⟨"b", 1, 0, 0, -1, 0, 5⟩ : Component).yy < 0) ∧
      (makePAnchor ⟨[], [], []⟩ 0 ⟨"b", 1, 0, 0, -1, 0, 5⟩ false
        ⟨"top", 3, 4⟩).anchor.name = "top" :=
  ⟨by decide, vertical_flip_branch_noop ⟨[], [], []⟩ 0 ⟨"b", 1, 0, 0, -1, 0, 5⟩ false
    ⟨"top", 3, 4⟩ (by decide) (by decide)⟩

/-- C10: a composite glyph with no explicit category, no Unicode value and
no mark anchor, all of whose components' base glyphs are missing from the
glyph set or themselves unclassifiable, is classified `mark`: the
"all components are marks" check is vacuously true over the empty
dictionary of classified components. -/
theorem vacuous_component_category_is_mark (ctx : Ctx) (glyphs : List Glyph) (fuel : Nat)
    (g : Glyph)
    (hlib : assocFind? ctx.categories g.name = none)
    (huni : g.unicode = none)
    (hmark : hasMarkAnchor ctx g = false)
    (hcomp : g.components ≠ [])
    (hbases : ∀ c, c ∈ g.components →
      findGlyph glyphs c.baseGlyph = none ∨
        ∃ bg, findGlyph glyphs c.baseGlyph = some bg ∧
          getGlyphCategory ctx glyphs fuel bg = none) :
    getGlyphCategory ctx glyphs (fuel + 1) g = some "mark" := by
  have hcats : g.components.filterMap
      (fun c => (findGlyph glyphs c.baseGlyph).bind (getGlyphCategory ctx glyphs fuel)) = [] := by
    rw [List.filterMap_eq_nil_iff]
    intro c hc
    rcases hbases c hc with h | ⟨bg, hf, hcat⟩
    · simp [h]
    · simp [hf, hcat]
  have hne : g.components.isEmpty = false := by
    cases hcm : g.components with
    | nil => exact absurd hcm hcomp
    | cons a l => rfl
  rw [getGlyphCategory, getGlyphCategoryAux]
  simp [hlib, huni, hmark, hne, hcats]

/-- Witness for `vacuous_component_category_is_mark`: a composite whose
only component's base glyph is missing from the glyph set. -/
theorem vacuous_component_category_is_mark_witness :
    getGlyphCategory ⟨[], [], []⟩ [] 1 ⟨"X", [], [⟨"gone", 1, 0, 0, 1, 0, 0⟩], none⟩ =
      some "mark" :=
  vacuous_component_category_is_mark ⟨[], [], []⟩ [] 0 ⟨"X", [], [⟨"gone", 1, 0, 0, 1, 0, 0⟩], none⟩
    rfl rfl rfl (by decide) (fun c _ => Or.inl rfl)

lemma extends_refl (st : PropState) : Extends st st :=
  ⟨rfl, fun _ h => h, fun m => ⟨[], (List.append_nil _).symm⟩⟩

lemma extends_trans {a b c : PropState} (h1 : Extends a b) (h2 : Extends b c) : Extends a c := by
  refine ⟨h2.1.trans h1.1, fun x hx => h2.2.1 x (h1.2.1 x hx), fun m => ?_⟩
  obtain ⟨e1, he1⟩ := h1.2.2 m
  obtain ⟨e2, he2⟩ := h2.2.2 m
  exact ⟨e1 ++ e2, by rw [he2, he1, List.append_assoc]⟩

lemma findGlyph_map_nameInv (gl : List Glyph) (f : Glyph → Glyph)
    (hf : ∀ g, (f g).name = g.name) (m : String) :
    findGlyph (gl.map f) m = (findGlyph gl m).map f := by
  unfold findGlyph
  rw [List.find?_map]
  have hpred : ((fun (g : Glyph) => decide (g.name = m)) ∘ f) =
      (fun (g : Glyph) => decide (g.name = m)) := by
    funext g
    simp [Function.comp, hf g]
  rw [hpred]

lemma appendAnchors_extends (st : PropState) (n : String) (extra : List Anchor) :
    Extends st (appendAnchors st n extra) := by
  have hname : ∀ g : Glyph,
      (if g.name = n then { g with anchors := g.anchors ++ extra } else g).name = g.name := by
    intro g
    by_cases h : g.name = n <;> simp [h]
  refine ⟨?_, fun x h => h, ?_⟩
  · rw [appendAnchors, List.map_map]
    exact List.map_congr_left (fun g _ => hname g)
  · intro m
    have hfind := findGlyph_map_nameInv st.glyphs
      (fun g => if g.name = n then { g with anchors := g.anchors ++ extra } else g) hname m
    cases hg : findGlyph st.glyphs m with
    | none =>
      refine ⟨[], ?_⟩
      simp only [anchorsAt, appendAnchors] at hfind ⊢
      rw [hfind, hg]
      rfl
    | some g =>
      by_cases he : g.name = n
      · refine ⟨extra, ?_⟩
        simp only [anchorsAt, appendAnchors] at hfind ⊢
        rw [hfind, hg]
        simp [he]
      · refine ⟨[], ?_⟩
        simp only [anchorsAt, appendAnchors] at hfind ⊢
        rw [hfind, hg]
        simp [he]

lemma collect_extends (ctx : Ctx) (rec : PropState → String → List Anchor × PropState)
    (hrec : ∀ st2 nm, Extends st2 (rec st2 nm).2) :
    ∀ (l : List (Nat × Component)) (acc : List PAnchor × PropState),
      Extends acc.2 (l.foldl (collectCompStep rec ctx) acc).2 := by
  intro l
  induction l with
  | nil => intro acc; exact extends_refl acc.2
  | cons ic l ih =>
    intro acc
    rw [List.foldl_cons]
    cases hfb : findGlyph acc.2.glyphs ic.2.baseGlyph with
    | none =>
      have hstep : collectCompStep rec ctx acc ic = acc := by
        cases acc; simp only [collectCompStep] at hfb ⊢; rw [hfb]
      rw [hstep]
      exact ih acc
    | some bg =>
      have hstep : collectCompStep rec ctx acc ic =
          (acc.1 ++ (rec acc.2 ic.2.baseGlyph).1.map
            (makePAnchor ctx ic.1 ic.2
              ((rec acc.2 ic.2.baseGlyph).1.any (fun a => matchesMarkRE a.name))),
            (rec acc.2 ic.2.baseGlyph).2) := by
        cases acc; simp only [collectCompStep] at hfb ⊢; rw [hfb]
      rw [hstep]
      exact extends_trans (hrec acc.2 ic.2.baseGlyph) (ih _)

lemma processed_grow_extends (st : PropState) (n : String) :
    Extends st ⟨st.glyphs, st.processed ++ [n]⟩ := by
  refine ⟨rfl, ?_, fun m => ⟨[], (List.append_nil _).symm⟩⟩
  intro x hx
  simp only [List.contains] at hx ⊢
  rw [List.elem_iff] at hx ⊢
  exact List.mem_append_left _ hx

lemma propagate_extends (ctx : Ctx) :
    ∀ (fuel : Nat) (st : PropState) (n : String),
      Extends st (propagateGlyphAnchors ctx fuel st n).2 := by
  intro fuel
  induction fuel with
  | zero => intro st n; exact extends_refl st
  | succ fuel ih =>
    intro st n
    cases hf : findGlyph st.glyphs n with
    | none =>
      simp only [propagateGlyphAnchors, hf]
      exact extends_refl st
    | some g =>
      by_cases hp : st.processed.contains n = true
      · simp only [propagateGlyphAnchors, hf, hp, if_true]
        exact extends_refl st
      · simp only [propagateGlyphAnchors, hf, if_neg hp]
        by_cases hcm : g.components.isEmpty
        · rw [if_pos hcm]
          exact processed_grow_extends st n
        · rw [if_neg hcm]
          refine extends_trans (processed_grow_extends st n) ?_
          refine extends_trans
            (collect_extends ctx (propagateGlyphAnchors ctx fuel) (fun st2 nm => ih st2 nm)
              g.components.enum ([], ⟨st.glyphs, st.processed ++ [n]⟩)) ?_
          exact appendAnchors_extends _ n _

lemma propagate_state_id (ctx : Ctx) (fuel : Nat) (st : PropState) (n : String)
    (h : st.processed.contains n = true ∨ findGlyph st.glyphs n = none) :
    (propagateGlyphAnchors ctx fuel st n).2 = st := by
  cases fuel with
  | zero => rfl
  | succ fuel =>
    cases hf : findGlyph st.glyphs n with
    | none => simp only [propagateGlyphAnchors, hf]
    | some g =>
      rcases h with hp | hnone
      · simp only [propagateGlyphAnchors, hf, hp, if_true]
      · rw [hf] at hnone
        cases hnone

lemma propagate_marks (ctx : Ctx) (fuel : Nat) (st : PropState) (n : String) (g : Glyph)
    (hf : findGlyph st.glyphs n = some g) :
    (propagateGlyphAnchors ctx (fuel + 1) st n).2.processed.contains n = true := by
  have hself : (st.processed ++ [n]).contains n = true := by
    simp only [List.contains]
    rw [List.elem_iff]
    exact List.mem_append_right _ (List.mem_singleton_self n)
  by_cases hp : st.processed.contains n = true
  · simp only [propagateGlyphAnchors, hf, hp, if_true]
  · simp only [propagateGlyphAnchors, hf, if_neg hp]
    by_cases hcm : g.components.isEmpty
    · rw [if_pos hcm]
      exact hself
    · rw [if_neg hcm]
      have hext := collect_extends ctx (propagateGlyphAnchors ctx fuel)
        (fun st2 nm => propagate_extends ctx fuel st2 nm)
        g.components.enum ([], ⟨st.glyphs, st.processed ++ [n]⟩)
      exact hext.2.1 n hself

lemma runPass_extends (ctx : Ctx) (fuel : Nat) :
    ∀ (names : List String) (st : PropState), Extends st (runPass ctx fuel st names) := by
  intro names
  induction names with
  | nil => intro st; exact extends_refl st
  | cons m rest ih =>
    intro st
    rw [runPass, List.foldl_cons]
    exact extends_trans (propagate_extends ctx fuel st m) (ih _)

lemma runPass_id (ctx : Ctx) (fuel : Nat) :
    ∀ (names : List String) (st : PropState),
      (∀ n, n ∈ names → (propagateGlyphAnchors ctx fuel st n).2 = st) →
      runPass ctx fuel st names = st := by
  intro names
  induction names with
  | nil => intro st _; rfl
  | cons m rest ih =>
    intro st h
    rw [runPass, List.foldl_cons, h m (List.mem_cons_self m rest)]
    exact ih st (fun n hn => h n (List.mem_cons_of_mem m hn))

lemma isSome_of_name_eq {gl gl2 : List Glyph} (h : gl2.map Glyph.name = gl.map Glyph.name)
    {n : String} (hs : (findGlyph gl2 n).isSome = true) : (findGlyph gl n).isSome = true := by
  rw [findGlyph, List.find?_isSome] at hs ⊢
  obtain ⟨g, hg, hgn⟩ := hs
  have hn2 : n ∈ gl2.map Glyph.name := by
    rw [List.mem_map]
    exact ⟨g, hg, by simpa using hgn⟩
  rw [h, List.mem_map] at hn2
  obtain ⟨g2, hg2, hg2n⟩ := hn2
  exact ⟨g2, hg2, by simpa using hg2n⟩

lemma runPass_marks (ctx : Ctx) (fuel : Nat) :
    ∀ (names : List String) (st : PropState) (n : String), n ∈ names →
      (findGlyph (runPass ctx (fuel + 1) st names).glyphs n).isSome = true →
      (runPass ctx (fuel + 1) st names).processed.contains n = true := by
  intro names
  induction names with
  | nil => intro st n hn; exact absurd hn (List.not_mem_nil n)
  | cons m rest ih =>
    intro st n hn hs
    rw [runPass, List.foldl_cons] at hs ⊢
    rcases List.mem_cons.mp hn with he | hr
    · subst he
      have hext : Extends (propagateGlyphAnchors ctx (fuel + 1) st n).2
          (runPass ctx (fuel + 1) (propagateGlyphAnchors ctx (fuel + 1) st n).2 rest) :=
        runPass_extends ctx (fuel + 1) rest _
      have hsome1 : (findGlyph (propagateGlyphAnchors ctx (fuel + 1) st n).2.glyphs n).isSome = true :=
        isSome_of_name_eq hext.1 hs
      have hsome0 : (findGlyph st.glyphs n).isSome = true :=
        isSome_of_name_eq (propagate_extends ctx (fuel + 1) st n).1 hsome1
      obtain ⟨g, hg⟩ := Option.isSome_iff_exists.mp hsome0
      exact hext.2.1 n (propagate_marks ctx fuel st n g hg)
    · exact ih _ n hr hs

/-- C1 (amended): within a single filter run — one context and one
processed set — a second propagation pass over the same glyph names is a
no-op: the memoization makes every second `_propagate_glyph_anchors` call
return without modifying the font or the processed set.  (Across two
separate filter runs the context is rebuilt and idempotence fails, see the
counterexample.) -/
theorem propagation_second_pass_noop (ctx : Ctx) (fuel : Nat) (st : PropState)
    (names : List String) :
    runPass ctx fuel (runPass ctx fuel st names) names = runPass ctx fuel st names := by
  cases fuel with
  | zero =>
    have hid : ∀ st2 : PropState, runPass ctx 0 st2 names = st2 := by
      intro st2
      exact runPass_id ctx 0 names st2 (fun n _ => rfl)
    rw [hid, hid]
  | succ fuel =>
    apply runPass_id
    intro n hn
    cases hf : findGlyph (runPass ctx (fuel + 1) st names).glyphs n with
    | none => exact propagate_state_id ctx (fuel + 1) _ n (Or.inr hf)
    | some g =>
      refine propagate_state_id ctx (fuel + 1) _ n (Or.inl ?_)
      exact runPass_marks ctx fuel names st n hn (by rw [hf]; rfl)

/-- C1 counterexample: running the whole filter twice is not idempotent.
On `ligaFontA` the first run leaves glyph `X` without anchors (the
ligature-renamed names `top_1`/`top_2` have no attachment yet), while the
second run re-collects the attachments — which now include `top_1` and
`top_2` as base names — re-appends the renamed anchors to the ligature and
propagates them on to `X`. -/
theorem filter_twice_not_idempotent :
    fontAnchors (runFilterOnce 5 ligaFontA) "X" = [] ∧
    fontAnchors (runFilterOnce 5 (runFilterOnce 5 ligaFontA)) "X" =
      [⟨"top_1", 100, 200⟩, ⟨"top_1", 100, 200⟩, ⟨"top_2", 450, 200⟩, ⟨"top_2", 450, 200⟩] ∧
    fontAnchors (runFilterOnce 5 ligaFontA) "liga" =
      [⟨"top_1", 100, 200⟩, ⟨"top_2", 450, 200⟩] ∧
    fontAnchors (runFilterOnce 5 (runFilterOnce 5 ligaFontA)) "liga" =
      [⟨"top_1", 100, 200⟩, ⟨"top_2", 450, 200⟩, ⟨"top_1", 100, 200⟩, ⟨"top_2", 450, 200⟩] := by
  refine ⟨by decide, by decide, by decide, by decide⟩

lemma prune_pair_removed (A : Attachment) (pa1 pa2 : PAnchor)
    (hn1 : pa1.anchor.name = "top") (hi1 : pa1.componentIdx = 0)
    (hn2 : pa2.anchor.name = "_top") (hi2 : pa2.componentIdx = 1)
    (hmk2 : pa2.componentIsMark = true)
    (ha1 : pa1.attachment = some A) (ha2 : pa2.attachment = some A)
    (hb : A.base.contains "top" = true) (hm : A.mark.contains "_top" = true)
    (hnm : A.mark.contains "top" = false) :
    pruneMarkAnchors (pruneAttachedAnchors false [pa1, pa2]) = [] := by
  have hne : ¬ (pa1 = pa2) := by
    intro he
    rw [he, hi2] at hi1
    exact absurd hi1 (by decide)
  have hne2 : ¬ (pa2 = pa1) := fun he => hne he.symm
  have hbmem : "top" ∈ A.base := by simpa using hb
  have hmmem : "_top" ∈ A.mark := by simpa using hm
  have hnmmem : "top" ∉ A.mark := by simpa using hnm
  have hfc : findClosestBase [pa1, pa2] pa2 = some (sqDist pa2.anchor pa1.anchor, pa1) := by
    unfold findClosestBase
    simp only [List.foldl_cons, List.foldl_nil]
    simp [hne, hne2, ha1, ha2, attBaseOf, hn1, hn2, hbmem, hi1, hi2]
  have hbm : buildMatches [pa1, pa2] = [("_top", [(sqDist pa2.anchor pa1.anchor, pa2, pa1)])] := by
    unfold buildMatches
    simp only [List.foldl_cons, List.foldl_nil]
    simp [attMarkOf, ha1, ha2, hn1, hn2, hnmmem, hmmem, hmk2, hfc, matchesAppend, assocFind?]
  unfold pruneAttachedAnchors
  rw [hbm]
  simp only [List.foldl_cons, List.foldl_nil]
  have hsort : stableInsertionSort distLt [(sqDist pa2.anchor pa1.anchor, pa2, pa1)] =
      [(sqDist pa2.anchor pa1.anchor, pa2, pa1)] := rfl
  rw [hsort]
  simp only [if_false, Bool.false_eq_true]
  have her1 : ([pa1, pa2]).erase pa2 = [pa1] := by
    rw [List.erase_cons]
    simp [hne]
  have hrm : removeMatched [pa1, pa2] (sqDist pa2.anchor pa1.anchor, pa2, pa1) = [] := by
    unfold removeMatched
    simp only []
    rw [her1]
    simp
  simp only [List.foldl_cons, List.foldl_nil, hrm]
  rfl

lemma prune_single_mark (A : Attachment) (pa2 : PAnchor)
    (hn2 : pa2.anchor.name = "_top") (ha2 : pa2.attachment = some A)
    (hm : A.mark.contains "_top" = true) :
    pruneMarkAnchors (pruneAttachedAnchors false [pa2]) = [] := by
  have hfc : findClosestBase [pa2] pa2 = none := by
    unfold findClosestBase
    simp
  have hbm : buildMatches [pa2] = [] := by
    unfold buildMatches
    simp only [List.foldl_cons, List.foldl_nil]
    simp [hfc]
  unfold pruneAttachedAnchors
  rw [hbm]
  simp only [List.foldl_nil]
  unfold pruneMarkAnchors
  have hmmem : "_top" ∈ A.mark := by simpa using hm
  simp [attMarkOf, ha2, hn2, hmmem]


lemma makePAnchor_name_noFlip (ctx : Ctx) (idx : Nat) (c : Component) (m : Bool) (a : Anchor)
    (h : horizontalOpposite a.name = none) :
    (makePAnchor ctx idx c m a).anchor.name = a.name := by
  simp [makePAnchor, h]

lemma makePAnchor_attachment_noFlip (ctx : Ctx) (idx : Nat) (c : Component) (m : Bool) (a : Anchor)
    (h : horizontalOpposite a.name = none) :
    (makePAnchor ctx idx c m a).attachment = getAnchorAttachment ctx a.name := by
  simp [makePAnchor, h]

lemma appendAnchors_nil_glyphs (st : PropState) (n : String) :
    (appendAnchors st n []).glyphs = st.glyphs := by
  simp [appendAnchors]

lemma propagate_base_pair_scenario (ctx : Ctx) (fuel : Nat) (st : PropState) (g b1 b2 : Glyph)
    (c1 c2 : Component) (A : Attachment) (p q r s : Int)
    (h1 : findGlyph st.glyphs g.name = some g)
    (h2 : g.components = [c1, c2])
    (h3 : c1.baseGlyph = b1.name) (h4 : c2.baseGlyph = b2.name)
    (h5 : findGlyph st.glyphs b1.name = some b1) (h6 : b1.components = [])
    (h7 : b1.anchors = [⟨"top", p, q⟩])
    (h8 : findGlyph st.glyphs b2.name = some b2) (h9 : b2.components = [])
    (h10 : b2.anchors = [⟨"_top", r, s⟩])
    (h11 : assocFind? ctx.categories g.name = some "base")
    (h12 : getAnchorAttachment ctx "top" = some A)
    (h13 : getAnchorAttachment ctx "_top" = some A)
    (h14 : A.base.contains "top" = true) (h15 : A.mark.contains "_top" = true)
    (h16 : A.mark.contains "top" = false)
    (h17 : (g.anchors.map Anchor.name).contains "_top" = false)
    (h18 : st.processed.contains g.name = false) :
    (propagateGlyphAnchors ctx (fuel + 1) st g.name).1 = g.anchors ∧
      (propagateGlyphAnchors ctx (fuel + 1) st g.name).2.glyphs = st.glyphs := by
  have hpn : ¬ (st.processed.contains g.name = true) := by
    rw [h18]
    simp
  have hcmn : ¬ (g.components.isEmpty = true) := by rw [h2]; simp
  have hunfold : propagateGlyphAnchors ctx (fuel + 1) st g.name =
      propagateCore (propagateGlyphAnchors ctx fuel) ctx fuel
        ⟨st.glyphs, st.processed ++ [g.name]⟩ g g.name := by
    simp only [propagateGlyphAnchors, h1, if_neg hpn, if_neg hcmn]
  have hsimp2 : ∀ ic, ic ∈ ([(0, c1), (1, c2)] : List (Nat × Component)) → ∀ bg,
      findGlyph st.glyphs ic.2.baseGlyph = some bg → bg.components = [] := by
    intro ic hic bg hfb
    rcases List.mem_cons.mp hic with he | hic2
    · subst he
      rw [h3, h5] at hfb
      cases hfb
      exact h6
    · rcases List.mem_cons.mp hic2 with he | h0
      · subst he
        rw [h4, h8] at hfb
        cases hfb
        exact h9
      · exact absurd h0 (List.not_mem_nil ic)
  obtain ⟨pr2, hcol⟩ := collect_simple ctx fuel st.glyphs [(0, c1), (1, c2)] []
    (st.processed ++ [g.name]) hsimp2
  have hmt : matchesMarkRE "top" = false := by decide
  have hmu : matchesMarkRE "_top" = true := by decide
  have hfold : ([(0, c1), (1, c2)] : List (Nat × Component)).foldr
      (fun ic acc =>
        (match findGlyph st.glyphs ic.2.baseGlyph with
          | none => []
          | some bg => bg.anchors.map
              (makePAnchor ctx ic.1 ic.2 (bg.anchors.any (fun a => matchesMarkRE a.name)))) ++ acc)
      [] =
      [makePAnchor ctx 0 c1 false ⟨"top", p, q⟩, makePAnchor ctx 1 c2 true ⟨"_top", r, s⟩] := by
    simp only [List.foldr_cons, List.foldr_nil, h3, h4, h5, h8, h7, h10]
    simp [hmt, hmu]
  have hcc : collectComponentsAnchors (propagateGlyphAnchors ctx fuel) ctx
      ⟨st.glyphs, st.processed ++ [g.name]⟩ g.components =
      ([makePAnchor ctx 0 c1 false ⟨"top", p, q⟩, makePAnchor ctx 1 c2 true ⟨"_top", r, s⟩],
        ⟨st.glyphs, pr2⟩) := by
    unfold collectComponentsAnchors
    rw [h2, show ([c1, c2] : List Component).enum = [(0, c1), (1, c2)] from rfl, hcol, hfold]
    simp
  have hopT : horizontalOpposite "top" = none := by decide
  have hopU : horizontalOpposite "_top" = none := by decide
  set pa1 := makePAnchor ctx 0 c1 false ⟨"top", p, q⟩ with hpa1def
  set pa2 := makePAnchor ctx 1 c2 true ⟨"_top", r, s⟩ with hpa2def
  have hn1 : pa1.anchor.name = "top" := makePAnchor_name_noFlip ctx 0 c1 false ⟨"top", p, q⟩ hopT
  have hn2 : pa2.anchor.name = "_top" := makePAnchor_name_noFlip ctx 1 c2 true ⟨"_top", r, s⟩ hopU
  have ha1 : pa1.attachment = some A := by
    rw [hpa1def, makePAnchor_attachment_noFlip ctx 0 c1 false ⟨"top", p, q⟩ hopT]
    exact h12
  have ha2 : pa2.attachment = some A := by
    rw [hpa2def, makePAnchor_attachment_noFlip ctx 1 c2 true ⟨"_top", r, s⟩ hopU]
    exact h13
  have hi1 : pa1.componentIdx = 0 := rfl
  have hi2 : pa2.componentIdx = 1 := rfl
  have hmk2 : pa2.componentIsMark = true := rfl
  have hcat : getGlyphCategory ctx st.glyphs fuel g = some "base" := by
    cases fuel with
    | zero => rw [getGlyphCategory, getGlyphCategoryAux, h11]
    | succ f => rw [getGlyphCategory, getGlyphCategoryAux, h11]
  have hcore : propagateCore (propagateGlyphAnchors ctx fuel) ctx fuel
      ⟨st.glyphs, st.processed ++ [g.name]⟩ g g.name =
      (g.anchors, appendAnchors ⟨st.glyphs, pr2⟩ g.name []) := by
    unfold propagateCore
    rw [hcc]
    simp only [h1, Option.getD_some, hcat, if_pos rfl]
    have h17m : "_top" ∉ List.map Anchor.name g.anchors := by simpa using h17
    have hc2 : decide (pa2.attachment.isSome = true ∧
        ¬ (List.map Anchor.name g.anchors).contains pa2.anchor.name = true) = true := by
      simp [ha2, hn2]
      intro x hx he
      exact h17m (List.mem_map.mpr ⟨x, hx, he⟩)
    have hprune : pruneMarkAnchors (pruneAttachedAnchors false
        (([pa1, pa2]).filter
          (fun pa => pa.attachment.isSome ∧
            ¬ (g.anchors.map Anchor.name).contains pa.anchor.name))) = [] := by
      by_cases hown : ((g.anchors.map Anchor.name).contains pa1.anchor.name) = true
      · rw [hn1] at hown
        have hTopMem : "top" ∈ List.map Anchor.name g.anchors := by simpa using hown
        obtain ⟨x0, hx0, hxe0⟩ := List.mem_map.mp hTopMem
        have hc1 : decide (pa1.attachment.isSome = true ∧
            ¬ (List.map Anchor.name g.anchors).contains pa1.anchor.name = true) = false := by
          simp [ha1, hn1]
          exact ⟨x0, hx0, hxe0⟩
        have hfilter : ([pa1, pa2]).filter
            (fun pa => pa.attachment.isSome ∧
              ¬ (g.anchors.map Anchor.name).contains pa.anchor.name) = [pa2] := by
          simp only [List.filter_cons, List.filter_nil, hc1, hc2]
          simp
        rw [hfilter]
        exact prune_single_mark A pa2 hn2 ha2 h15
      · rw [hn1] at hown
        have hTopNot : "top" ∉ List.map Anchor.name g.anchors := by simpa using hown
        have hc1 : decide (pa1.attachment.isSome = true ∧
            ¬ (List.map Anchor.name g.anchors).contains pa1.anchor.name = true) = true := by
          simp [ha1, hn1]
          intro x hx he
          exact hTopNot (List.mem_map.mpr ⟨x, hx, he⟩)
        have hfilter : ([pa1, pa2]).filter
            (fun pa => pa.attachment.isSome ∧
              ¬ (g.anchors.map Anchor.name).contains pa.anchor.name) = [pa1, pa2] := by
          simp only [List.filter_cons, List.filter_nil, hc1, hc2]
          simp
        rw [hfilter]
        exact prune_pair_removed A pa1 pa2 hn1 hi1 hn2 hi2 hmk2 ha1 ha2 h14 h15 h16
    rw [hprune]
    simp [stableInsertionSort]
  rw [hunfold, hcore]
  exact ⟨by simp, appendAnchors_nil_glyphs ⟨st.glyphs, pr2⟩ g.name⟩


/-- C2 (amended): for a base glyph composed of a base component carrying
anchor `top` and a mark component carrying anchor `_top`, provided the
composite does not itself already carry the mark anchor `_top`,
propagation appends nothing — in particular neither `top` nor `_top`
appears as a new anchor — and, in general, propagation never removes or
modifies an existing anchor of any glyph: it only ever appends. -/
theorem attached_pair_pruned_and_anchors_only_appended :
    (∀ (ctx : Ctx) (fuel : Nat) (st : PropState) (n m : String),
      ∃ extra, anchorsAt (propagateGlyphAnchors ctx fuel st n).2 m = anchorsAt st m ++ extra) ∧
    (∀ (ctx : Ctx) (fuel : Nat) (st : PropState) (g b1 b2 : Glyph) (c1 c2 : Component)
        (A : Attachment) (p q r s : Int),
      findGlyph st.glyphs g.name = some g →
      g.components = [c1, c2] →
      c1.baseGlyph = b1.name → c2.baseGlyph = b2.name →
      findGlyph st.glyphs b1.name = some b1 → b1.components = [] →
      b1.anchors = [⟨"top", p, q⟩] →
      findGlyph st.glyphs b2.name = some b2 → b2.components = [] →
      b2.anchors = [⟨"_top", r, s⟩] →
      assocFind? ctx.categories g.name = some "base" →
      getAnchorAttachment ctx "top" = some A →
      getAnchorAttachment ctx "_top" = some A →
      A.base.contains "top" = true → A.mark.contains "_top" = true →
      A.mark.contains "top" = false →
      (g.anchors.map Anchor.name).contains "_top" = false →
      st.processed.contains g.name = false →
      (propagateGlyphAnchors ctx (fuel + 1) st g.name).1 = g.anchors ∧
        (propagateGlyphAnchors ctx (fuel + 1) st g.name).2.glyphs = st.glyphs) := by
  constructor
  · intro ctx fuel st n m
    exact (propagate_extends ctx fuel st n).2.2 m
  · intro ctx fuel st g b1 b2 c1 c2 A p q r s h1 h2 h3 h4 h5 h6 h7 h8 h9 h10 h11 h12 h13
      h14 h15 h16 h17 h18
    exact propagate_base_pair_scenario ctx fuel st g b1 b2 c1 c2 A p q r s h1 h2 h3 h4 h5 h6
      h7 h8 h9 h10 h11 h12 h13 h14 h15 h16 h17 h18

/-- Witness for `attached_pair_pruned_and_anchors_only_appended`: a
concrete base composite (own anchor `ownx` only); the attached `top`/`_top`
pair coming from its two components is pruned, so its anchors are
unchanged. -/
theorem attached_pair_pruned_witness :
    assocFind? ([("G", "base")] : List (String × String)) "G" = some "base" ∧
    (propagateGlyphAnchors ⟨[⟨["top"], ["_top"]⟩], [("G", "base")], []⟩ 3
      ⟨[⟨"b1", [⟨"top", 1, 2⟩], [], none⟩, ⟨"b2", [⟨"_top", 3, 4⟩], [], none⟩,
        ⟨"G", [⟨"ownx", 9, 9⟩], [⟨"b1", 1, 0, 0, 1, 0, 0⟩, ⟨"b2", 1, 0, 0, 1, 0, 0⟩], none⟩],
        []⟩ "G").1 = [⟨"ownx", 9, 9⟩] := by
  constructor
  · rfl
  · exact (attached_pair_pruned_and_anchors_only_appended.2
      ⟨[⟨["top"], ["_top"]⟩], [("G", "base")], []⟩ 2
      ⟨[⟨"b1", [⟨"top", 1, 2⟩], [], none⟩, ⟨"b2", [⟨"_top", 3, 4⟩], [], none⟩,
        ⟨"G", [⟨"ownx", 9, 9⟩], [⟨"b1", 1, 0, 0, 1, 0, 0⟩, ⟨"b2", 1, 0, 0, 1, 0, 0⟩], none⟩], []⟩
      ⟨"G", [⟨"ownx", 9, 9⟩], [⟨"b1", 1, 0, 0, 1, 0, 0⟩, ⟨"b2", 1, 0, 0, 1, 0, 0⟩], none⟩
      ⟨"b1", [⟨"top", 1, 2⟩], [], none⟩ ⟨"b2", [⟨"_top", 3, 4⟩], [], none⟩
      ⟨"b1", 1, 0, 0, 1, 0, 0⟩ ⟨"b2", 1, 0, 0, 1, 0, 0⟩ ⟨["top"], ["_top"]⟩ 1 2 3 4
      rfl rfl rfl rfl rfl rfl rfl rfl rfl rfl rfl rfl rfl (by decide) (by decide) (by decide)
      (by decide) (by decide)).1

/-- C2 counterexample: on `baseOwnMarkFont` the composite `G` (category
`base`, components carrying `top` and `_top`) already holds a local
`_top`; the propagated `_top` is dropped as already present, the
attached-pair pruning therefore finds no partner for the propagated
`top`, and `top` IS appended as a new anchor — refuting the claim as
stated. -/
theorem attached_pair_claim_counterexample :
    fontAnchors (runFilterOnce 4 baseOwnMarkFont) "G" = [⟨"_top", 5, 5⟩, ⟨"top", 0, 0⟩] ∧
    ("top" ∈ (fontAnchors (runFilterOnce 4 baseOwnMarkFont) "G").map Anchor.name) ∧
    ¬ ("top" ∈ (fontAnchors baseOwnMarkFont "G").map Anchor.name) := by
  refine ⟨by decide, by decide, by decide⟩

/-- Witness for `propagation_second_pass_noop` at a concrete run. -/
theorem propagation_second_pass_noop_witness :
    runPass ⟨[], [], []⟩ 2 (runPass ⟨[], [], []⟩ 2 ⟨ligaFontA.glyphs, []⟩ ["liga", "X"])
        ["liga", "X"] =
      runPass ⟨[], [], []⟩ 2 ⟨ligaFontA.glyphs, []⟩ ["liga", "X"] :=
  propagation_second_pass_noop ⟨[], [], []⟩ 2 ⟨ligaFontA.glyphs, []⟩ ["liga", "X"]

/-- Witness for `parse_anchor_name_errors` at a concrete name. -/
theorem parse_anchor_name_errors_witness :
    ((parseAnchorName "_top_2".data).isOk = false ↔
      (markNumberedViolation "_top_2".data ∨ nilMarkKeyViolation "_top_2".data)) :=
  parse_anchor_name_errors.1 "_top_2".data

lemma foldlMax_swap (l : List (Nat × List NAnchor)) :
    ∀ (i j : Nat), l.foldl (fun m p => max m p.1) (max i j) =
      max (l.foldl (fun m p => max m p.1) i) j := by
  induction l with
  | nil => intro i j; rfl
  | cons p ps ih =>
    intro i j
    simp only [List.foldl_cons]
    rw [show max (max i j) p.1 = max (max i p.1) j by
      rw [max_assoc, max_comm j p.1, ← max_assoc]]
    exact ih (max i p.1) j

lemma foldlMax_compSet (d : List (Nat × List NAnchor)) (k : Nat) (v : List NAnchor) :
    ∀ init, (compSet d k v).foldl (fun m p => max m p.1) init =
      max (d.foldl (fun m p => max m p.1) init) k := by
  induction d with
  | nil =>
    intro init
    simp [compSet]
  | cons p ps ih =>
    intro init
    by_cases hp : p.1 = k
    · have hstep : compSet (p :: ps) k v = (k, v) :: ps := by
        simp [compSet, hp]
      rw [hstep]
      simp only [List.foldl_cons]
      rw [hp, foldlMax_swap ps init k, max_assoc, max_self]
    · have hstep : compSet (p :: ps) k v = p :: compSet ps k v := by
        simp [compSet, hp]
      rw [hstep]
      simp only [List.foldl_cons]
      exact ih (max init p.1)

lemma keyMax_compAppend (d : List (Nat × List NAnchor)) (k : Nat) (a : NAnchor) :
    keyMax (compAppend d k a) = max (keyMax d) k := by
  unfold compAppend keyMax
  cases hg : compGet? d k with
  | some l => exact foldlMax_compSet d k (l ++ [a]) 0
  | none =>
    rw [List.foldl_append]
    rfl

lemma keyMax_compSet (d : List (Nat × List NAnchor)) (k : Nat) (v : List NAnchor) :
    keyMax (compSet d k v) = max (keyMax d) k :=
  foldlMax_compSet d k v 0

lemma compGet?_compSet (d : List (Nat × List NAnchor)) (k k2 : Nat) (v : List NAnchor) :
    compGet? (compSet d k v) k2 = if k2 = k then some v else compGet? d k2 := by
  induction d with
  | nil =>
    by_cases h : k = k2
    · subst h
      simp [compSet, compGet?, List.find?]
    · have h2 : ¬ k2 = k := fun he => h he.symm
      simp [compSet, compGet?, List.find?, h, h2]
  | cons p ps ih =>
    by_cases hp : p.1 = k
    · simp only [compSet, if_pos hp]
      by_cases h : k2 = k
      · subst h
        simp [compGet?, List.find?]
      · have hks : ¬ (k = k2) := fun he => h he.symm
        have hpk2 : ¬ (p.1 = k2) := by rw [hp]; exact hks
        simp [compGet?, List.find?, hks, hpk2, h]
    · simp only [compSet, if_neg hp]
      by_cases hpk2 : p.1 = k2
      · have h : ¬ k2 = k := fun he => hp (by rw [hpk2, he])
        simp [compGet?, List.find?, hpk2, h]
      · simp only [compGet?, List.find?] at ih ⊢
        simp [hpk2, ih]

lemma compGet?_append_fresh (d : List (Nat × List NAnchor)) (k k2 : Nat) (v : List NAnchor)
    (h : compGet? d k2 = none) :
    compGet? (d ++ [(k, v)]) k2 = if k2 = k then some v else none := by
  induction d with
  | nil =>
    by_cases he : k = k2
    · subst he
      simp [compGet?, List.find?]
    · have h2 : ¬ k2 = k := fun hx => he hx.symm
      simp [compGet?, List.find?, he, h2]
  | cons p ps ih =>
    have hph : ¬ (p.1 = k2) := by
      intro hp
      simp [compGet?, List.find?, hp] at h
    have htail : compGet? ps k2 = none := by
      simp only [compGet?, List.find?, hph] at h
      simpa [compGet?, hph] using h
    simp only [List.cons_append, compGet?, List.find?, hph] at ih ⊢
    simpa [hph] using ih htail

lemma compGet?_compAppend_isSome (d : List (Nat × List NAnchor)) (k k2 : Nat) (a : NAnchor) :
    (compGet? (compAppend d k a) k2).isSome =
      (if k2 = k then true else (compGet? d k2).isSome) := by
  unfold compAppend
  cases hg : compGet? d k with
  | some l =>
    rw [compGet?_compSet]
    by_cases h : k2 = k <;> simp [h]
  | none =>
    by_cases h : k2 = k
    · have hg2 : compGet? d k2 = none := by rw [h]; exact hg
      rw [compGet?_append_fresh d k k2 [a] hg2]
      simp [h]
    · have hgen : compGet? (d ++ [(k, [a])]) k2 = compGet? d k2 := by
        cases hg2 : compGet? d k2 with
        | none =>
          rw [compGet?_append_fresh d k k2 [a] hg2]
          simp [h]
        | some l2 =>
          unfold compGet? at hg2 ⊢
          rw [List.find?_append]
          cases hf : d.find? (fun p => p.1 = k2) with
          | none => rw [hf] at hg2; cases hg2
          | some p => simp [hf] at hg2 ⊢; exact hg2
      rw [hgen]
      simp [h]

lemma maxNum_append_one (seen : List NAnchor) (a : NAnchor) :
    maxNum (seen ++ [a]) =
      match a.number with
      | some k => max (maxNum seen) k
      | none => maxNum seen := by
  unfold maxNum
  rw [List.foldl_append]
  rfl

lemma compDict_inv (rest : List NAnchor) :
    ∀ (seen : List NAnchor) (d : List (Nat × List NAnchor)),
      (∀ k, ((compGet? d k).isSome = true) ↔ (∃ a, a ∈ seen ∧ a.number = some k)) →
      keyMax d = maxNum seen →
      (∀ k, ((compGet? (rest.foldl
          (fun d a =>
            match a.number with
            | none => d
            | some k => if a.key = "" then compSet d k [] else compAppend d k a) d) k).isSome = true) ↔
        (∃ a, a ∈ seen ++ rest ∧ a.number = some k)) ∧
      keyMax (rest.foldl
          (fun d a =>
            match a.number with
            | none => d
            | some k => if a.key = "" then compSet d k [] else compAppend d k a) d) =
        maxNum (seen ++ rest) := by
  induction rest with
  | nil =>
    intro seen d hkeys hmax
    constructor
    · intro k
      simpa using hkeys k
    · simpa using hmax
  | cons a rest ih =>
    intro seen d hkeys hmax
    have hstep : ∀ k, ((compGet? (match a.number with
        | none => d
        | some k0 => if a.key = "" then compSet d k0 [] else compAppend d k0 a) k).isSome = true) ↔
        (∃ b, b ∈ seen ++ [a] ∧ b.number = some k) := by
      intro k
      cases hnum : a.number with
      | none =>
        simp only []
        rw [hkeys k]
        constructor
        · rintro ⟨b, hb, hbn⟩
          exact ⟨b, List.mem_append_left _ hb, hbn⟩
        · rintro ⟨b, hb, hbn⟩
          rcases List.mem_append.mp hb with hbs | hba
          · exact ⟨b, hbs, hbn⟩
          · rw [List.mem_singleton] at hba
            subst hba
            rw [hnum] at hbn
            cases hbn
      | some k0 =>
        have hiff : ((if k = k0 then true else (compGet? d k).isSome) = true) ↔
            (∃ b, b ∈ seen ++ [a] ∧ b.number = some k) := by
          by_cases hk : k = k0
          · subst hk
            constructor
            · intro _
              exact ⟨a, List.mem_append_right _ (List.mem_singleton_self a), hnum⟩
            · intro _
              simp
          · rw [if_neg hk, hkeys k]
            constructor
            · rintro ⟨b, hb, hbn⟩
              exact ⟨b, List.mem_append_left _ hb, hbn⟩
            · rintro ⟨b, hb, hbn⟩
              rcases List.mem_append.mp hb with hbs | hba
              · exact ⟨b, hbs, hbn⟩
              · rw [List.mem_singleton] at hba
                subst hba
                rw [hnum] at hbn
                exact absurd (Option.some.inj hbn).symm hk
        simp only []
        by_cases hkey : a.key = ""
        · rw [if_pos hkey]
          rw [← hiff]
          rw [compGet?_compSet]
          by_cases hk : k = k0 <;> simp [hk]
        · rw [if_neg hkey]
          rw [← hiff]
          rw [compGet?_compAppend_isSome]
    have hstepmax : keyMax (match a.number with
        | none => d
        | some k0 => if a.key = "" then compSet d k0 [] else compAppend d k0 a) =
        maxNum (seen ++ [a]) := by
      rw [maxNum_append_one]
      cases hnum : a.number with
      | none => simpa using hmax
      | some k0 =>
        simp only []
        by_cases hkey : a.key = ""
        · rw [if_pos hkey, keyMax_compSet, hmax]
        · rw [if_neg hkey, keyMax_compAppend, hmax]
    have := ih (seen ++ [a]) _ hstep hstepmax
    simpa [List.append_assoc] using this

lemma ligaFold_mono (markGlyphNames : List String) :
    ∀ (l : List (String × List NAnchor)) (res : List (String × List (List NAnchor)))
      (x : String × List (List NAnchor)), x ∈ res →
      x ∈ l.foldl
        (fun res p =>
          if markGlyphNames.contains p.1 then res
          else
            match ligaSlots p.2 with
            | none => res
            | some slots => res ++ [(p.1, slots)]) res := by
  intro l
  induction l with
  | nil => intro res x hx; exact hx
  | cons p rest ih =>
    intro res x hx
    rw [List.foldl_cons]
    apply ih
    by_cases hm : markGlyphNames.contains p.1 = true
    · have hmm : p.1 ∈ markGlyphNames := by simpa using hm
      simpa [hmm] using hx
    · have hmm : p.1 ∉ markGlyphNames := by simpa using hm
      cases hsl : ligaSlots p.2 with
      | none => simpa [hmm, hsl] using hx
      | some slots =>
        simp only [hsl]
        have hif : (if markGlyphNames.contains p.1 = true then res else res ++ [(p.1, slots)]) =
            res ++ [(p.1, slots)] := by
          simp [hmm]
        simpa [hmm] using List.mem_append_left [(p.1, slots)] hx

/-- C7: for every non-mark glyph with numbered anchors, the
mark-to-ligature rule has exactly `max(componentAnchors.keys())` slots,
enumerated from 1 to the maximum anchor number, and every index carrying
no anchor contributes the empty (null-anchor) slot; a glyph with `top`
anchors only on components 1 and 3 yields exactly three slots with the
middle one empty, and such glyphs (and only the non-mark ones) contribute
a rule to `_makeMarkToLigaAttachments`. -/
theorem liga_slots_structure :
    (∀ (anchors : List NAnchor) (a0 : NAnchor) (k0 : Nat),
      a0 ∈ anchors → a0.number = some k0 →
      ∃ slots, ligaSlots anchors = some slots ∧
        slots.length = maxNum anchors ∧
        (∀ k, 1 ≤ k → k ≤ maxNum anchors → (∀ a, a ∈ anchors → a.number ≠ some k) →
          slots[k - 1]? = some [])) ∧
    (ligaSlots [⟨"top_1", "top", some 1, false, 10, 20⟩,
        ⟨"top_3", "top", some 3, false, 30, 40⟩] =
      some [[⟨"top_1", "top", some 1, false, 10, 20⟩], [],
        [⟨"top_3", "top", some 3, false, 30, 40⟩]]) ∧
    (∀ (anchorLists : List (String × List NAnchor)) (markGlyphNames : List String)
        (gname : String) (anchors : List NAnchor) (slots : List (List NAnchor)),
      (gname, anchors) ∈ anchorLists → markGlyphNames.contains gname = false →
      ligaSlots anchors = some slots →
      (gname, slots) ∈ makeMarkToLigaAttachments anchorLists markGlyphNames) := by
  refine ⟨?_, by decide, ?_⟩
  · intro anchors a0 k0 hmem hnum
    have hbase1 : ∀ k, ((compGet? ([] : List (Nat × List NAnchor)) k).isSome = true) ↔
        (∃ a, a ∈ ([] : List NAnchor) ∧ a.number = some k) := by
      intro k
      simp [compGet?]
    have hbase2 : keyMax ([] : List (Nat × List NAnchor)) = maxNum [] := rfl
    obtain ⟨hkeys, hmax⟩ := compDict_inv anchors [] [] hbase1 hbase2
    have hd : componentAnchorsOf anchors = anchors.foldl
        (fun d a =>
          match a.number with
          | none => d
          | some k => if a.key = "" then compSet d k [] else compAppend d k a) [] := rfl
    have hkeys2 : ∀ k, ((compGet? (componentAnchorsOf anchors) k).isSome = true) ↔
        (∃ a, a ∈ anchors ∧ a.number = some k) := by
      intro k
      rw [hd]
      simpa using hkeys k
    have hmax2 : keyMax (componentAnchorsOf anchors) = maxNum anchors := by
      rw [hd]
      simpa using hmax
    have hne : (componentAnchorsOf anchors).isEmpty = false := by
      have hsome : (compGet? (componentAnchorsOf anchors) k0).isSome = true :=
        (hkeys2 k0).mpr ⟨a0, hmem, hnum⟩
      cases hda : componentAnchorsOf anchors with
      | nil =>
        rw [hda] at hsome
        simp [compGet?] at hsome
      | cons x l => rfl
    refine ⟨(List.range' 1 (keyMax (componentAnchorsOf anchors))).map
      (fun k => (compGet? (componentAnchorsOf anchors) k).getD []), ?_, ?_, ?_⟩
    · unfold ligaSlots
      simp [hne]
    · simp [hmax2]
    · intro k hk1 hk2 hnone
      have hnone2 : compGet? (componentAnchorsOf anchors) k = none := by
        cases hg : compGet? (componentAnchorsOf anchors) k with
        | none => rfl
        | some l =>
          have : (compGet? (componentAnchorsOf anchors) k).isSome = true := by
            rw [hg]; rfl
          obtain ⟨a, ha, han⟩ := (hkeys2 k).mp this
          exact absurd han (hnone a ha)
      rw [List.getElem?_map]
      have hlt : k - 1 < keyMax (componentAnchorsOf anchors) := by
        rw [hmax2]
        omega
      have hrange : (List.range' 1 (keyMax (componentAnchorsOf anchors)))[k - 1]? =
          some (1 + (k - 1)) := by
        have hh := List.getElem?_range' 1 1 hlt
        simpa using hh
      rw [hrange]
      have hkk : 1 + (k - 1) = k := by omega
      rw [hkk]
      simp [hnone2]
  · intro anchorLists markGlyphNames gname anchors slots hmem hnm hsl
    have hgen : ∀ (l : List (String × List NAnchor)) (res : List (String × List (List NAnchor))),
        (gname, anchors) ∈ l →
        (gname, slots) ∈ l.foldl
          (fun res p =>
            if markGlyphNames.contains p.1 then res
            else
              match ligaSlots p.2 with
              | none => res
              | some slots => res ++ [(p.1, slots)]) res := by
      intro l
      induction l with
      | nil => intro res hx; exact absurd hx (List.not_mem_nil _)
      | cons p rest ih =>
        intro res hx
        rw [List.foldl_cons]
        rcases List.mem_cons.mp hx with he | hr
        · have hnm2 : gname ∉ markGlyphNames := by simpa using hnm
          have hstep : (if markGlyphNames.contains p.1 then res
              else
                match ligaSlots p.2 with
                | none => res
                | some slots => res ++ [(p.1, slots)]) = res ++ [(gname, slots)] := by
            rw [← he]
            simp [hnm2, hsl]
          rw [hstep]
          exact ligaFold_mono markGlyphNames rest (res ++ [(gname, slots)]) (gname, slots)
            (List.mem_append_right res (List.mem_singleton_self _))
        · exact ih _ hr
    exact hgen anchorLists [] hmem

/-- Witness for C7: the two-anchor glyph (`top_1`, `top_3`) satisfies the
hypotheses; its rule has three slots with the middle one null, and the
glyph appears in the mark-to-ligature attachment list. -/
theorem liga_slots_structure_witness :
    ((⟨"top_1", "top", some 1, false, 10, 20⟩ : NAnchor) ∈
        ([⟨"top_1", "top", some 1, false, 10, 20⟩,
          ⟨"top_3", "top", some 3, false, 30, 40⟩] : List NAnchor) ∧
      (⟨"top_1", "top", some 1, false, 10, 20⟩ : NAnchor).number = some 1) ∧
    (∃ slots, ligaSlots [⟨"top_1", "top", some 1, false, 10, 20⟩,
          ⟨"top_3", "top", some 3, false, 30, 40⟩] = some slots ∧
        slots.length = maxNum [⟨"top_1", "top", some 1, false, 10, 20⟩,
          ⟨"top_3", "top", some 3, false, 30, 40⟩] ∧
        slots[1]? = some []) ∧
    (("lig", ([⟨"top_1", "top", some 1, false, 10, 20⟩,
          ⟨"top_3", "top", some 3, false, 30, 40⟩] : List NAnchor)) ∈
        [("lig", ([⟨"top_1", "top", some 1, false, 10, 20⟩,
          ⟨"top_3", "top", some 3, false, 30, 40⟩] : List NAnchor))] ∧
      (["acutecomb"].contains "lig") = false ∧
      ("lig", ([[⟨"top_1", "top", some 1, false, 10, 20⟩], [],
          [⟨"top_3", "top", some 3, false, 30, 40⟩]] : List (List NAnchor))) ∈
        makeMarkToLigaAttachments
          [("lig", [⟨"top_1", "top", some 1, false, 10, 20⟩,
            ⟨"top_3", "top", some 3, false, 30, 40⟩])] ["acutecomb"]) := by
  refine ⟨⟨by decide, rfl⟩, ?_, by decide, by decide, ?_⟩
  · obtain ⟨slots, h1, h2, h3⟩ := liga_slots_structure.1
      ([⟨"top_1", "top", some 1, false, 10, 20⟩,
        ⟨"top_3", "top", some 3, false, 30, 40⟩] : List NAnchor)
      (⟨"top_1", "top", some 1, false, 10, 20⟩ : NAnchor) 1 (by decide) rfl
    exact ⟨slots, h1, h2, h3 2 (by decide) (by decide) (by decide)⟩
  · exact liga_slots_structure.2.2
      ([("lig", [⟨"top_1", "top", some 1, false, 10, 20⟩,
        ⟨"top_3", "top", some 3, false, 30, 40⟩])] : List (String × List NAnchor))
      ["acutecomb"] "lig"
      ([⟨"top_1", "top", some 1, false, 10, 20⟩,
        ⟨"top_3", "top", some 3, false, 30, 40⟩] : List NAnchor)
      ([[⟨"top_1", "top", some 1, false, 10, 20⟩], [],
        [⟨"top_3", "top", some 3, false, 30, 40⟩]] : List (List NAnchor))
      (by decide) (by decide) (by decide)
lemma charsLt_asymm : ∀ as bs, charsLt as bs = true → charsLt bs as = false := by
  intro as
  induction as with
  | nil =>
    intro bs h
    cases bs with
    | nil => simp [charsLt] at h
    | cons b bs => simp [charsLt]
  | cons a as ih =>
    intro bs h
    cases bs with
    | nil => simp [charsLt] at h
    | cons b bs =>
      rw [charsLt] at h ⊢
      by_cases hab : a < b
      · have hba : ¬ b < a := not_lt.mpr (le_of_lt hab)
        rw [if_neg hba, if_pos hab]
      · rw [if_neg hab] at h
        by_cases hba : b < a
        · rw [if_pos hba] at h
          simp at h
        · rw [if_neg hba] at h
          rw [if_neg hba, if_neg hab]
          exact ih bs h

lemma charsLt_negtrans :
    ∀ as bs cs, charsLt as bs = false → charsLt bs cs = false → charsLt as cs = false := by
  intro as
  induction as with
  | nil =>
    intro bs cs h1 h2
    cases bs with
    | nil =>
      cases cs with
      | nil => simp [charsLt]
      | cons c cs => simp [charsLt] at h2
    | cons b bs => simp [charsLt] at h1
  | cons a as ih =>
    intro bs cs h1 h2
    cases cs with
    | nil => simp [charsLt]
    | cons c cs =>
      cases bs with
      | nil => simp [charsLt] at h2
      | cons b bs =>
        rw [charsLt] at h1 h2 ⊢
        by_cases hab : a < b
        · rw [if_pos hab] at h1
          simp at h1
        · rw [if_neg hab] at h1
          by_cases hbc : b < c
          · rw [if_pos hbc] at h2
            simp at h2
          · rw [if_neg hbc] at h2
            have hac : ¬ a < c := not_lt.mpr (le_trans (not_lt.mp hbc) (not_lt.mp hab))
            rw [if_neg hac]
            by_cases hca : c < a
            · rw [if_pos hca]
            · rw [if_neg hca]
              have hab2 : a = b :=
                le_antisymm (le_trans (not_lt.mp hca) (not_lt.mp hbc)) (not_lt.mp hab)
              have hbc2 : b = c :=
                le_antisymm (le_trans (not_lt.mp hab) (not_lt.mp hca)) (not_lt.mp hbc)
              have hba : ¬ b < a := by
                rw [← hab2]
                exact lt_irrefl a
              rw [if_neg hba] at h1
              have hcb : ¬ c < b := by
                rw [← hbc2]
                exact lt_irrefl b
              rw [if_neg hcb] at h2
              exact ih bs cs h1 h2

lemma strLt_asymm (a b : String) : strLt a b = true → strLt b a = false :=
  charsLt_asymm a.data b.data

lemma strLt_negtrans (a b c : String) :
    strLt a b = false → strLt b c = false → strLt a c = false :=
  charsLt_negtrans a.data b.data c.data

lemma stableInsert_perm {α : Type} (lt : α → α → Bool) (x : α) :
    ∀ l : List α, (stableInsert lt x l).Perm (x :: l) := by
  intro l
  induction l with
  | nil => simp [stableInsert]
  | cons y ys ih =>
    rw [stableInsert]
    by_cases h : lt y x = true
    · rw [if_pos h]
      exact (ih.cons y).trans (List.Perm.swap x y ys)
    · rw [if_neg h]

lemma stableInsertionSort_perm {α : Type} (lt : α → α → Bool) :
    ∀ l : List α, (stableInsertionSort lt l).Perm l := by
  intro l
  induction l with
  | nil => simp [stableInsertionSort]
  | cons x xs ih =>
    rw [stableInsertionSort]
    exact (stableInsert_perm lt x _).trans (ih.cons x)

lemma stableInsert_pairwise {α : Type} (lt : α → α → Bool)
    (hneg : ∀ a b c, lt a b = false → lt b c = false → lt a c = false)
    (hasym : ∀ a b, lt a b = true → lt b a = false) (x : α) :
    ∀ l : List α, l.Pairwise (fun a b => lt b a = false) →
      (stableInsert lt x l).Pairwise (fun a b => lt b a = false) := by
  intro l
  induction l with
  | nil =>
    intro _
    simp [stableInsert]
  | cons y ys ih =>
    intro hl
    rw [List.pairwise_cons] at hl
    obtain ⟨hy, hys⟩ := hl
    rw [stableInsert]
    by_cases h : lt y x = true
    · rw [if_pos h]
      rw [List.pairwise_cons]
      refine ⟨?_, ih hys⟩
      intro z hz
      have hz2 := (stableInsert_perm lt x ys).mem_iff.mp hz
      rcases List.mem_cons.mp hz2 with rfl | hz3
      · exact hasym y z h
      · exact hy z hz3
    · have h2 : lt y x = false := by simpa using h
      rw [if_neg h]
      rw [List.pairwise_cons]
      refine ⟨?_, List.pairwise_cons.mpr ⟨hy, hys⟩⟩
      intro z hz
      rcases List.mem_cons.mp hz with rfl | hz2
      · exact h2
      · exact hneg z y x (hy z hz2) h2

lemma stableInsertionSort_pairwise {α : Type} (lt : α → α → Bool)
    (hneg : ∀ a b c, lt a b = false → lt b c = false → lt a c = false)
    (hasym : ∀ a b, lt a b = true → lt b a = false) :
    ∀ l : List α, (stableInsertionSort lt l).Pairwise (fun a b => lt b a = false) := by
  intro l
  induction l with
  | nil => simp [stableInsertionSort]
  | cons x xs ih =>
    rw [stableInsertionSort]
    exact stableInsert_pairwise lt hneg hasym x _ ih

lemma mkmkFold_eq (inc : String → Bool) :
    ∀ (l : List (String × List String)) (acc : List String),
      l.foldl (fun acc p => if (p.2.filter inc).isEmpty then acc else acc ++ [p.1]) acc =
        acc ++ (l.filter (fun p => !(p.2.filter inc).isEmpty)).map (fun p => p.1) := by
  intro l
  induction l with
  | nil =>
    intro acc
    simp
  | cons p ps ih =>
    intro acc
    rw [List.foldl_cons]
    by_cases h : (p.2.filter inc).isEmpty = true
    · rw [if_pos h, ih]
      simp [List.filter_cons, h]
    · have h2 : (p.2.filter inc).isEmpty = false := by simpa using h
      rw [if_neg h, ih]
      simp [List.filter_cons, h2, List.append_assoc]

lemma mkmkLookupKeys_sorted (m2m : List (String × List String)) (inc : String → Bool) :
    (mkmkLookupKeys m2m inc).Pairwise (fun a b => strLt b a = false) := by
  unfold mkmkLookupKeys
  rw [mkmkFold_eq, List.nil_append]
  apply List.pairwise_map.mpr
  apply List.Pairwise.filter
  exact stableInsertionSort_pairwise strKeyLt
    (fun a b c h1 h2 => strLt_negtrans a.1 b.1 c.1 h1 h2)
    (fun a b h => strLt_asymm a.1 b.1 h) m2m

lemma assocFind?_eq_none {α : Type} :
    ∀ (l : List (String × α)) (k : String), k ∉ l.map Prod.fst → assocFind? l k = none := by
  intro l
  induction l with
  | nil =>
    intro k _
    rfl
  | cons p ps ih =>
    intro k hk
    simp only [List.map_cons, List.mem_cons, not_or] at hk
    have hp : ¬ p.1 = k := fun he => hk.1 he.symm
    have hrest := ih k hk.2
    unfold assocFind? at hrest ⊢
    rw [List.find?_cons]
    simp only [hp, decide_False]
    exact hrest

lemma defineFold_spec (cn : String) :
    ∀ (pairs done : List (String × NAnchor)) (defs0 : List (String × String × FeaAnchor)),
      (done.map Prod.fst ++ pairs.map Prod.fst).Nodup →
      pairs.foldl defineStep
        (defs0, [(cn, done.map (fun q => (q.1, (⟨q.2.x, q.2.y⟩ : FeaAnchor))))], cn)
      = (defs0 ++ pairs.map (fun p => (cn, p.1, (⟨p.2.x, p.2.y⟩ : FeaAnchor))),
         [(cn, (done ++ pairs).map (fun q => (q.1, (⟨q.2.x, q.2.y⟩ : FeaAnchor))))], cn) := by
  intro pairs
  induction pairs with
  | nil =>
    intro done defs0 _
    simp
  | cons p ps ih =>
    intro done defs0 hnd
    rw [List.foldl_cons]
    have hfind1 : assocFind? [(cn, done.map (fun q => (q.1, (⟨q.2.x, q.2.y⟩ : FeaAnchor))))] cn
        = some (done.map (fun q => (q.1, (⟨q.2.x, q.2.y⟩ : FeaAnchor)))) := by
      simp [assocFind?]
    have hdisj := List.disjoint_of_nodup_append hnd
    have hpn : p.1 ∉ done.map Prod.fst := fun hmem => hdisj hmem (by simp)
    have hfind2 :
        assocFind? (done.map (fun q => (q.1, (⟨q.2.x, q.2.y⟩ : FeaAnchor)))) p.1 = none := by
      apply assocFind?_eq_none
      simpa [List.map_map, Function.comp] using hpn
    have hstep : defineStep
        (defs0, [(cn, done.map (fun q => (q.1, (⟨q.2.x, q.2.y⟩ : FeaAnchor))))], cn) p
        = (defs0 ++ [(cn, p.1, (⟨p.2.x, p.2.y⟩ : FeaAnchor))],
           [(cn, (done.map (fun q => (q.1, (⟨q.2.x, q.2.y⟩ : FeaAnchor)))
             ++ [(p.1, (⟨p.2.x, p.2.y⟩ : FeaAnchor))]))], cn) := by
      unfold defineStep defineMarkClass
      simp only [hfind1, hfind2, assocSet]
      simp
    rw [hstep]
    have hlist : done.map (fun q => (q.1, (⟨q.2.x, q.2.y⟩ : FeaAnchor)))
        ++ [(p.1, (⟨p.2.x, p.2.y⟩ : FeaAnchor))]
        = (done ++ [p]).map (fun q => (q.1, (⟨q.2.x, q.2.y⟩ : FeaAnchor))) := by
      simp
    rw [hlist]
    have hnd2 : ((done ++ [p]).map Prod.fst ++ ps.map Prod.fst).Nodup := by
      simpa [List.append_assoc] using hnd
    rw [ih (done ++ [p]) (defs0 ++ [(cn, p.1, (⟨p.2.x, p.2.y⟩ : FeaAnchor))]) hnd2]
    simp [List.append_assoc]

lemma group_single_aux :
    ∀ (gl : List (String × Int × Int)) (pre : List (String × NAnchor)),
      (gl.map (fun g => (g.1, [(⟨"_top", "top", none, true, g.2.1, g.2.2⟩ : NAnchor)]))).foldl
        (fun groups p =>
          p.2.foldl
            (fun groups a =>
              if (["_top"] : List String).contains a.name then
                assocAppendList groups a.name (p.1, a)
              else groups)
            groups)
        [("_top", pre)]
      = [("_top", pre ++
          gl.map (fun g => (g.1, (⟨"_top", "top", none, true, g.2.1, g.2.2⟩ : NAnchor))))] := by
  intro gl
  induction gl with
  | nil =>
    intro pre
    simp
  | cons g rest ih =>
    intro pre
    rw [List.map_cons, List.foldl_cons]
    have hstep :
        ((fun g => (g.1, [(⟨"_top", "top", none, true, g.2.1, g.2.2⟩ : NAnchor)])) g).2.foldl
          (fun groups a =>
            if (["_top"] : List String).contains a.name then
              assocAppendList groups a.name
                (((fun g => (g.1, [(⟨"_top", "top", none, true, g.2.1, g.2.2⟩ : NAnchor)])) g).1, a)
            else groups)
          [("_top", pre)]
        = [("_top", pre ++ [(g.1, (⟨"_top", "top", none, true, g.2.1, g.2.2⟩ : NAnchor))])] := by
      simp [assocAppendList, assocFind?, assocSet]
    rw [hstep, ih]
    simp [List.append_assoc]

lemma group_single (gl : List (String × Int × Int)) :
    groupMarkGlyphsByAnchor
      (gl.map (fun g => (g.1, [(⟨"_top", "top", none, true, g.2.1, g.2.2⟩ : NAnchor)])))
      ["_top"]
    = if gl.isEmpty then []
      else [("_top",
        gl.map (fun g => (g.1, (⟨"_top", "top", none, true, g.2.1, g.2.2⟩ : NAnchor))))] := by
  cases gl with
  | nil => rfl
  | cons g rest =>
    unfold groupMarkGlyphsByAnchor
    rw [List.map_cons, List.foldl_cons]
    simp only [List.foldl_cons, List.foldl_nil]
    have hinit : (if (["_top"] : List String).contains "_top" = true then
        assocAppendList [] "_top"
          (g.1, (⟨"_top", "top", none, true, g.2.1, g.2.2⟩ : NAnchor))
      else ([] : List (String × List (String × NAnchor))))
      = [("_top", [(g.1, (⟨"_top", "top", none, true, g.2.1, g.2.2⟩ : NAnchor))])] := by
      simp [assocAppendList, assocFind?]
    rw [hinit, group_single_aux rest [(g.1, (⟨"_top", "top", none, true, g.2.1, g.2.2⟩ : NAnchor))]]
    simp


lemma stableInsertionSort_singleton {α : Type} (lt : α → α → Bool) (x : α) :
    stableInsertionSort lt [x] = [x] := rfl

/-- C8: the feature blocks are appended in sorted feature-tag order (the
emitted order is a sorted permutation of the tags), and the mark-to-mark
lookups of the `mkmk` feature are emitted in sorted anchor-key order; but
the members of a mark class are NOT sorted by glyph name: they are emitted
in glyph-set iteration order (here shown for a single mark anchor `_top`
over glyphs with distinct names). -/
theorem mark_writer_output_order :
    (∀ tags : List String,
      (writeFeatureOrder tags).Pairwise (fun a b => strLt b a = false) ∧
      (writeFeatureOrder tags).Perm tags) ∧
    (∀ (m2m : List (String × List String)) (inc : String → Bool),
      (mkmkLookupKeys m2m inc).Pairwise (fun a b => strLt b a = false)) ∧
    (∀ gl : List (String × Int × Int), (gl.map Prod.fst).Nodup →
      makeMarkClassDefinitions
        (gl.map (fun g => (g.1, [(⟨"_top", "top", none, true, g.2.1, g.2.2⟩ : NAnchor)])))
        ["_top"]
      = gl.map (fun g => ("MC_top", g.1, (⟨g.2.1, g.2.2⟩ : FeaAnchor)))) := by
  refine ⟨?_, mkmkLookupKeys_sorted, ?_⟩
  · intro tags
    unfold writeFeatureOrder
    exact ⟨stableInsertionSort_pairwise strLt strLt_negtrans strLt_asymm tags,
      stableInsertionSort_perm strLt tags⟩
  · intro gl hnd
    cases gl with
    | nil => rfl
    | cons g rest =>
      unfold makeMarkClassDefinitions
      rw [group_single]
      simp only [List.isEmpty_cons, Bool.false_eq_true, if_false,
        stableInsertionSort_singleton, List.map_cons, List.foldl_cons, List.foldl_nil]
      have hstep1 : defineStep ([], [], "MC" ++ "_top")
          (g.1, (⟨"_top", "top", none, true, g.2.1, g.2.2⟩ : NAnchor))
          = ([("MC" ++ "_top", g.1, (⟨g.2.1, g.2.2⟩ : FeaAnchor))],
             [("MC" ++ "_top", [(g.1, (⟨g.2.1, g.2.2⟩ : FeaAnchor))])], "MC" ++ "_top") := by
        unfold defineStep defineMarkClass
        simp [assocFind?]
      rw [hstep1]
      have hnd2 : (([(g.1, (⟨"_top", "top", none, true, g.2.1, g.2.2⟩ : NAnchor))].map
            Prod.fst)
          ++ ((rest.map (fun g => (g.1,
                (⟨"_top", "top", none, true, g.2.1, g.2.2⟩ : NAnchor)))).map Prod.fst)).Nodup := by
        simpa [List.map_map, Function.comp] using hnd
      have happ := defineFold_spec ("MC" ++ "_top")
        (rest.map (fun g => (g.1, (⟨"_top", "top", none, true, g.2.1, g.2.2⟩ : NAnchor))))
        [(g.1, (⟨"_top", "top", none, true, g.2.1, g.2.2⟩ : NAnchor))]
        [("MC" ++ "_top", g.1, (⟨g.2.1, g.2.2⟩ : FeaAnchor))] hnd2
      simp only [List.map_cons, List.map_nil] at happ
      rw [happ]
      have hcn : ("MC" ++ "_top" : String) = "MC_top" := rfl
      simp [hcn, List.map_map, Function.comp]

/-- C8 counterexample: with the glyph set iterated in the order `beta`,
`alpha`, the members of mark class `MC_top` are emitted as `beta`, `alpha`
— not sorted by glyph name, although `alpha` sorts before `beta`. -/
theorem mark_class_members_not_sorted :
    (makeMarkClassDefinitions
      [("beta", [⟨"_top", "top", none, true, 0, 0⟩]),
       ("alpha", [⟨"_top", "top", none, true, 1, 1⟩])] ["_top"]).map
        (fun d => d.2.1) = ["beta", "alpha"] ∧
    strLt "alpha" "beta" = true := by decide

/-- Witness for `mark_writer_output_order` at concrete inputs: unsorted
tags get sorted, a two-key mark-to-mark table yields sorted lookup keys,
and a singleton glyph set (with trivially distinct names) produces its one
mark class definition. -/
theorem mark_writer_output_order_witness :
    ((writeFeatureOrder ["mkmk", "mark"]).Pairwise (fun a b => strLt b a = false) ∧
      (writeFeatureOrder ["mkmk", "mark"]).Perm ["mkmk", "mark"]) ∧
    (mkmkLookupKeys [("top", ["acutecomb"]), ("bottom", ["cedilla"])]
      (fun _ => true)).Pairwise (fun a b => strLt b a = false) ∧
    (([("alpha", (3 : Int), (4 : Int))].map Prod.fst).Nodup ∧
      makeMarkClassDefinitions [("alpha", [⟨"_top", "top", none, true, 3, 4⟩])] ["_top"]
        = [("MC_top", "alpha", ⟨3, 4⟩)]) := by
  refine ⟨mark_writer_output_order.1 ["mkmk", "mark"],
    mark_writer_output_order.2.1 [("top", ["acutecomb"]), ("bottom", ["cedilla"])]
      (fun _ => true),
    by decide, ?_⟩
  have h := mark_writer_output_order.2.2 [("alpha", (3 : Int), (4 : Int))] (by decide)
  simpa using h

lemma foldl_maxStrLen_init_le (l : List String) :
    ∀ init : Nat, init ≤ l.foldl (fun m s => max m s.data.length) init := by
  induction l with
  | nil => intro init; exact le_refl _
  | cons s ss ih =>
    intro init
    rw [List.foldl_cons]
    exact le_trans (le_max_left _ _) (ih (max init s.data.length))

lemma maxStrLen_ge (l : List String) (s : String) (hs : s ∈ l) :
    s.data.length ≤ maxStrLen l := by
  have haux : ∀ (l2 : List String) (init : Nat), s ∈ l2 →
      s.data.length ≤ l2.foldl (fun m t => max m t.data.length) init := by
    intro l2
    induction l2 with
    | nil =>
      intro init hmem
      exact absurd hmem (List.not_mem_nil s)
    | cons t ts ih =>
      intro init hmem
      rw [List.foldl_cons]
      rcases List.mem_cons.mp hmem with rfl | hmem2
      · exact le_trans (le_max_right init s.data.length) (foldl_maxStrLen_init_le ts _)
      · exact ih _ hmem2
  exact haux l 0 hs

lemma makeFeaClassName_fresh (base : String) (existing : List String) :
    makeFeaClassName base existing ∉ existing := by
  intro hmem
  have hle := maxStrLen_ge existing _ hmem
  have hlen : (makeFeaClassName base existing).data.length
      = base.data.length + (maxStrLen existing + 1) := by
    simp [makeFeaClassName]
  rw [hlen] at hle
  omega

/-- C9: when `glyphName` is already defined in mark class `className`, a
second `_defineMarkClass` call with identical anchor geometry is a no-op
(no new definition, debug message logged), while a call with different
geometry forks a brand-new class whose name is not among the existing
class names, leaves the existing classes untouched, and emits the
definition there — the conflict is never dropped or overwritten. -/
theorem define_mark_class_conflict
    (mcs : List (String × List (String × FeaAnchor))) (className glyphName : String)
    (glyphs : List (String × FeaAnchor)) (a0 : FeaAnchor) (x y : Int)
    (h1 : assocFind? mcs className = some glyphs)
    (h2 : assocFind? glyphs glyphName = some a0) :
    ((⟨x, y⟩ : FeaAnchor) = a0 →
      defineMarkClass glyphName x y className mcs = (mcs, none, true)) ∧
    ((⟨x, y⟩ : FeaAnchor) ≠ a0 →
      defineMarkClass glyphName x y className mcs =
        (mcs ++ [(makeFeaClassName className (mcs.map (fun p => p.1)),
            [(glyphName, ⟨x, y⟩)])],
          some (makeFeaClassName className (mcs.map (fun p => p.1)), glyphName, ⟨x, y⟩),
          false) ∧
      makeFeaClassName className (mcs.map (fun p => p.1)) ∉ mcs.map (fun p => p.1)) := by
  constructor
  · intro heq
    have heqb : anchorsAreEqual ⟨x, y⟩ a0 = true := by
      rw [← heq]
      simp [anchorsAreEqual]
    unfold defineMarkClass
    simp only [h1, h2, heqb]
    simp
  · intro hne
    have hneb : anchorsAreEqual ⟨x, y⟩ a0 = false := by
      cases a0 with
      | mk ax ay =>
        simp only [anchorsAreEqual]
        rw [decide_eq_false_iff_not]
        intro hcon
        apply hne
        rw [FeaAnchor.mk.injEq]
        exact ⟨hcon.1, hcon.2⟩
    refine ⟨?_, makeFeaClassName_fresh className (mcs.map (fun p => p.1))⟩
    unfold defineMarkClass
    simp only [h1, h2, hneb]
    simp

/-- Witness for `define_mark_class_conflict` on a one-class state: the
identical-geometry call is skipped with the debug flag set, and the
conflicting call lands in a fresh class appended after the original. -/
theorem define_mark_class_conflict_witness :
    (assocFind? [("MC_top", [("a", (⟨1, 2⟩ : FeaAnchor))])] "MC_top"
        = some [("a", (⟨1, 2⟩ : FeaAnchor))] ∧
      assocFind? [("a", (⟨1, 2⟩ : FeaAnchor))] "a" = some (⟨1, 2⟩ : FeaAnchor)) ∧
    defineMarkClass "a" 1 2 "MC_top" [("MC_top", [("a", ⟨1, 2⟩)])]
      = ([("MC_top", [("a", ⟨1, 2⟩)])], none, true) ∧
    (defineMarkClass "a" 9 9 "MC_top" [("MC_top", [("a", ⟨1, 2⟩)])]
      = ([("MC_top", [("a", ⟨1, 2⟩)]),
          (makeFeaClassName "MC_top" ["MC_top"], [("a", ⟨9, 9⟩)])],
         some (makeFeaClassName "MC_top" ["MC_top"], "a", ⟨9, 9⟩), false) ∧
      makeFeaClassName "MC_top" ["MC_top"] ∉ ["MC_top"]) := by
  refine ⟨⟨by decide, by decide⟩, ?_, ?_⟩
  · exact (define_mark_class_conflict [("MC_top", [("a", ⟨1, 2⟩)])] "MC_top" "a"
      [("a", ⟨1, 2⟩)] ⟨1, 2⟩ 1 2 (by decide) (by decide)).1 rfl
  · have h := (define_mark_class_conflict [("MC_top", [("a", ⟨1, 2⟩)])] "MC_top" "a"
      [("a", ⟨1, 2⟩)] ⟨1, 2⟩ 9 9 (by decide) (by decide)).2 (by decide)
    simpa using h

end Ufo2ft
